import Mathlib

/-!
# Verification of the jets trace data engine

A shallow embedding of the core trace-data engine of the `jets` repository:
the line-oriented trace parser (`src/parser.rs`), the visibility-strategy
traversal engine (`src/domain/visibility.rs`, `src/domain/tree_operations.rs`),
the sorting module (`src/domain/sorting.rs`), and the tree cache
(`src/cache/tree_cache.rs`).  Rust `i64` values are modelled as `Int` (the
code performs no overflowing arithmetic on the paths verified here; the
`i64::MAX` / `i64::MIN` sentinels of `calculate_trace_extent` are kept as
explicit integer constants), `u64` identifiers as `Nat`, hash maps whose
iteration order matters as insertion-ordered association lists, and
`serde_json::Value` payloads as an uninterpreted `String`.
-/

namespace Jets

/-- Maximum value of a Rust `i64`, used as a sentinel by
`calculate_trace_extent`. -/
def i64Max : Int := 9223372036854775807

/-- Minimum value of a Rust `i64`, used as a sentinel by
`calculate_trace_extent`. -/
def i64Min : Int := -9223372036854775808

/-! ## Sorting: `src/state/tree_state.rs` sort specification and the stable
sort used by `Vec::sort_by`.

Rust's `sort_by` is a stable sort.  We model it as a stable insertion sort:
`insertOrd lt a l` walks past every element strictly before `a` and inserts
`a` in front of the first element that is not, so elements the comparator
ties keep their original relative order. -/

/-- Sort key selector (`SortKey` in `src/state/tree_state.rs`). -/
inductive SortKey where
  | description
  | startClock
  | duration
deriving DecidableEq, Repr

/-- Sort direction (`SortDir` in `src/state/tree_state.rs`). -/
inductive SortDir where
  | asc
  | desc
deriving DecidableEq, Repr

/-- Complete sorting specification (`SortSpec` in `src/state/tree_state.rs`). -/
structure SortSpec where
  key : SortKey
  dir : SortDir
deriving DecidableEq, Repr

/-- Stable insertion of `a` into `l`: skip elements strictly less than `a`
under `lt`, insert before the first one that is not. -/
def insertOrd (lt : α → α → Bool) (a : α) : List α → List α
  | [] => [a]
  | b :: l => if lt b a then b :: insertOrd lt a l else a :: b :: l

/-- Stable sort by a strict comparison, modelling Rust `Vec::sort_by` where
`lt x y` holds exactly when the comparator returns `Ordering::Less` on
`(x, y)`. -/
def sortStable (lt : α → α → Bool) : List α → List α
  | [] => []
  | a :: l => insertOrd lt a (sortStable lt l)

/-! ## Tree cache: `src/cache/tree_cache.rs`. -/

/-- Cache for expensive tree calculations (`TreeCache` in
`src/cache/tree_cache.rs`).  The two hash maps are modelled as association
lists. -/
structure TreeCache where
  subtree_sizes : List (Nat × Nat)
  all_children_collapsed : List (Nat × Bool)
  total_visible_nodes : Option Nat
  max_visible_depth : Option Nat
  expansion_seq : Nat
  filtered_viewport_range : Option (Int × Int)
  filtered_node_count : Option Nat
  sorted_children : List ((Nat × SortSpec) × List Nat)
deriving Repr

namespace TreeCache

/-- `TreeCache::new`. -/
def new : TreeCache :=
  { subtree_sizes := []
    all_children_collapsed := []
    total_visible_nodes := none
    max_visible_depth := none
    expansion_seq := 0
    filtered_viewport_range := none
    filtered_node_count := none
    sorted_children := [] }

/-- `TreeCache::invalidate_filtered_cache`: clears only the filtered-tree
entries, preserving the unfiltered cache. -/
def invalidate_filtered_cache (c : TreeCache) : TreeCache :=
  { c with filtered_viewport_range := none, filtered_node_count := none }

/-- `TreeCache::invalidate`: clears all cached data, bumps the sequence
number, and also invalidates the filtered cache. -/
def invalidate (c : TreeCache) : TreeCache :=
  invalidate_filtered_cache
    { c with subtree_sizes := []
             all_children_collapsed := []
             total_visible_nodes := none
             max_visible_depth := none
             expansion_seq := c.expansion_seq + 1
             sorted_children := [] }

/-- `TreeCache::is_filtered_cache_valid`. -/
def is_filtered_cache_valid (c : TreeCache) (start_clk end_clk : Int) : Bool :=
  match c.filtered_viewport_range with
  | some (cs, ce) => cs = start_clk && ce = end_clk
  | none => false

end TreeCache

/-! ## Domain record model

The domain layer (`src/domain/*.rs`) is generic over the `TraceRecord`
trait: it only uses `id`, `clk`, `description`, `duration`, `num_children`,
`child_at` and `subtree_depth`.  `DRec` is the tree-shaped model of such a
record (children held by value, as in the `MockRecord` test backends and —
after arena resolution — the parsed backend). -/

/-- A trace record as seen by the domain layer. -/
inductive DRec where
  | mk (id : Nat) (clk : Int) (description : String) (duration : Option Int)
       (children : List DRec)

namespace DRec

/-- `TraceRecord::id`. -/
def id : DRec → Nat
  | .mk i _ _ _ _ => i

/-- `TraceRecord::clk`. -/
def clk : DRec → Int
  | .mk _ c _ _ _ => c

/-- `TraceRecord::description`. -/
def description : DRec → String
  | .mk _ _ d _ _ => d

/-- `TraceRecord::duration`. -/
def duration : DRec → Option Int
  | .mk _ _ _ du _ => du

/-- The record's child list. -/
def children : DRec → List DRec
  | .mk _ _ _ _ cs => cs

/-- `TraceRecord::num_children`. -/
def num_children (r : DRec) : Nat := r.children.length

/-- `TraceRecord::child_at`. -/
def child_at (r : DRec) (i : Nat) : Option DRec := r.children.get? i

/-- `TraceRecord::subtree_depth`: 0 for a leaf, otherwise one more than the
maximum subtree depth of the children. -/
def subtree_depth : DRec → Nat
  | .mk _ _ _ _ cs =>
    if cs.isEmpty then 0
    else (cs.attach.map (fun c => subtree_depth c.1)).foldl max 0 + 1
decreasing_by
  have h := List.sizeOf_lt_of_mem c.2
  simp only [DRec.mk.sizeOf_spec]
  omega

end DRec

/-! ## Sorting module: `src/domain/sorting.rs`. -/

/-- Boolean strict order on `Option` matching Rust's derived `Ord` for
`Option`: `None` sorts before `Some`. -/
def optLt (ltv : α → α → Bool) : Option α → Option α → Bool
  | none, some _ => true
  | some a, some b => ltv a b
  | _, _ => false

/-- Boolean equality on `Option` values. -/
def optEqb (eqv : α → α → Bool) : Option α → Option α → Bool
  | none, none => true
  | some a, some b => eqv a b
  | _, _ => false

/-- Key used for sorting child records (`ChildKey` in
`src/domain/sorting.rs`); only the field selected by the sort key is
populated. -/
structure ChildKey where
  description : Option String
  start_clk : Option Int
  duration : Option Int
deriving DecidableEq, Repr

namespace ChildKey

/-- Rust's derived `Ord` on `ChildKey`: lexicographic comparison of the
three `Option` fields. -/
def lt (a b : ChildKey) : Bool :=
  optLt (fun x y : String => decide (x.toList < y.toList)) a.description b.description ||
    (optEqb (fun x y : String => decide (x = y)) a.description b.description &&
      (optLt (fun x y : Int => decide (x < y)) a.start_clk b.start_clk ||
        (optEqb (fun x y : Int => decide (x = y)) a.start_clk b.start_clk &&
          optLt (fun x y : Int => decide (x < y)) a.duration b.duration)))

/-- `ChildKey::from_record`. -/
def from_record (rec : DRec) (key : SortKey) : ChildKey :=
  match key with
  | .description => ⟨some rec.description, none, none⟩
  | .startClock => ⟨none, some rec.clk, none⟩
  | .duration => ⟨none, none, rec.duration⟩

end ChildKey

/-- The `(position, key)` item list materialized by
`sort_child_indices_for_parent`. -/
def childSortItems (parent : DRec) (spec : SortSpec) : List (Nat × ChildKey) :=
  (List.range parent.num_children).filterMap (fun i =>
    (parent.child_at i).map (fun c => (i, ChildKey.from_record c spec.key)))

/-- `sort_child_indices_for_parent` (`src/domain/sorting.rs`): materialize
`(position, key)` pairs for the children, stable-sort by key (comparison
reversed when descending), return the positions.  The unused `trace`
parameter of the source is dropped. -/
def sort_child_indices_for_parent (parent : DRec) (spec : SortSpec) : List Nat :=
  let asc : Bool := match spec.dir with | SortDir.asc => true | SortDir.desc => false
  (sortStable
      (fun a b : Nat × ChildKey =>
        if asc then ChildKey.lt a.2 b.2 else ChildKey.lt b.2 a.2)
      (childSortItems parent spec)).map (fun p => p.1)

/-- `Option α` viewed inside `WithBot α` (`none` at the bottom), the order
Rust's derived `Ord` gives `Option`. -/
def owbot : Option α → WithBot α
  | none => ⊥
  | some a => (a : WithBot α)

/-- Embedding of `ChildKey` into a lexicographic linear order; Rust's
derived `Ord` on the struct coincides with `<` under this embedding. -/
def ChildKey.toL (k : ChildKey) : WithBot String ×ₗ (WithBot Int ×ₗ WithBot Int) :=
  toLex (owbot k.description, toLex (owbot k.start_clk, owbot k.duration))

/-- Strict comparison derived from a key function into a linear order. -/
def ltOf [LinearOrder β] (key : α → β) : α → α → Bool :=
  fun a b => decide (key a < key b)

/-- The sort key of an item, under the lexicographic embedding. -/
def pairKey (p : Nat × ChildKey) : WithBot String ×ₗ (WithBot Int ×ₗ WithBot Int) :=
  p.2.toL

/-- Example children for the sorting claims: leaves with the given
descriptions. -/
def exChild (i : Nat) (d : String) : DRec := .mk i 0 d none []

/-- Example parent whose children have descriptions `b`, `a`, `c`. -/
def exParent : DRec :=
  .mk 0 0 "p" none [exChild 1 "b", exChild 2 "a", exChild 3 "c"]

/-! ## Parser data model: `src/parser.rs`

File reading, Brotli decompression and JSON decoding are abstracted away:
the input is a list of `RawLine`s, where a line is blank (skipped), fails
to decode as a `TraceLine` (`malformed`), or is a decoded entry.  JSON
payloads are carried as an uninterpreted `String`, string interning is
value-preserving and therefore modelled as the identity, and the
`HashMap<RecordId, JetsTraceRecord>` accumulated by the loop is modelled as
an insertion-ordered association list (fixing one iteration order for
`into_values`, which Rust leaves unspecified). -/

/-- `JetsTraceHeader`. -/
structure JetsTraceHeader where
  version : String
  metadata : String
deriving DecidableEq, Repr

/-- `JetsTraceFooter`. -/
structure JetsTraceFooter where
  capture_end_clk : Option Int
  total_records : Option Nat
  total_annots : Option Nat
  total_events : Option Nat
deriving DecidableEq, Repr

/-- `JetsTraceAnnotation` of the source (name shortened). -/
structure JetsTraceAnnot where
  line_type : String
  name : String
  record_id : Nat
  description : String
  data : String
deriving DecidableEq, Repr

/-- `JetsTraceEvent`. -/
structure JetsTraceEvent where
  clk : Int
  line_type : String
  name : String
  record_id : Nat
  description : String
  data : Option String
deriving DecidableEq, Repr

/-- `JetsTraceRecord` (the lazily attached arena handle is not part of the
value model; child access resolves indices through the arena list). -/
structure JetsTraceRecord where
  clk : Int
  name : String
  record_type : String
  id : Nat
  parent_id : Option Nat
  description : String
  data : Option String
  end_clk : Option Int
  duration : Option Int
  child_indices : List Nat
  annots : List JetsTraceAnnot
  events : List JetsTraceEvent
deriving DecidableEq, Repr

/-- `JetsTraceMetadata`. -/
structure JetsTraceMetadata where
  header : JetsTraceHeader
  footer : Option JetsTraceFooter
  trace_extent : Int × Int
deriving DecidableEq, Repr

/-- `JetsTraceData`. -/
structure JetsTraceData where
  metadata : JetsTraceMetadata
  root_indices : List Nat
  records_by_id : List (Nat × Nat)
  all_records : List JetsTraceRecord
deriving DecidableEq, Repr

/-- The typed line entries (`enum TraceLine`). -/
inductive TraceLine where
  | header (version : String) (metadata : String)
  | record (clk : Int) (name : String) (record_type : String) (id : Nat)
      (parent_id : Option Nat) (description : String) (data : Option String)
  | record_end (clk : Int) (record_id : Nat)
  | annot (name : String) (record_id : Nat) (description : String) (data : String)
  | event (clk : Int) (name : String) (record_id : Nat) (description : String)
      (data : Option String)
  | footer (capture_end_clk : Option Int) (total_records : Option Nat)
      (total_annots : Option Nat) (total_events : Option Nat)
deriving DecidableEq, Repr

/-- One physical input line as the parser sees it. -/
inductive RawLine where
  | blank
  | malformed
  | entry (l : TraceLine)
deriving DecidableEq, Repr

/-- The fatal parse failures of `parse_trace`; every constructor except
`missingHeader` carries the 1-based offending line number that the source
interpolates into its error message. -/
inductive ParseError where
  | malformedJson (line : Nat)
  | headerNotFirst (line : Nat)
  | duplicateId (id : Nat) (line : Nat)
  | unknownRecordEnd (id : Nat) (line : Nat)
  | unknownAnnotTarget (id : Nat) (line : Nat)
  | unknownEventTarget (id : Nat) (line : Nat)
  | missingHeader
deriving DecidableEq, Repr

/-- The line number an error message reports, when it reports one. -/
def ParseError.errorLine : ParseError → Option Nat
  | .malformedJson n => some n
  | .headerNotFirst n => some n
  | .duplicateId _ n => some n
  | .unknownRecordEnd _ n => some n
  | .unknownAnnotTarget _ n => some n
  | .unknownEventTarget _ n => some n
  | .missingHeader => none

/-- Mutable state of the parse loop. -/
structure ParseState where
  header : Option JetsTraceHeader
  footer : Option JetsTraceFooter
  records : List (Nat × JetsTraceRecord)
deriving DecidableEq, Repr

/-- In-place update of the association-list model of the records map
(`HashMap::get_mut` mutates the stored record without moving it). -/
def aupdate (m : List (Nat × JetsTraceRecord)) (k : Nat)
    (f : JetsTraceRecord → JetsTraceRecord) : List (Nat × JetsTraceRecord) :=
  m.map (fun p => if p.1 = k then (p.1, f p.2) else p)

/-- The per-line loop of `parse_trace` (`src/parser.rs` lines 223–310).
`line_num` is the 0-based index of the current line. -/
def parseLoop : Nat → ParseState → List RawLine → Except ParseError ParseState
  | _, st, [] => .ok st
  | line_num, st, l :: rest =>
    match l with
    | .blank => parseLoop (line_num + 1) st rest
    | .malformed => .error (.malformedJson (line_num + 1))
    | .entry (.header v m) =>
      if line_num ≠ 0 then .error (.headerNotFirst (line_num + 1))
      else parseLoop (line_num + 1) { st with header := some ⟨v, m⟩ } rest
    | .entry (.record c nm rty i pid descr d) =>
      if (st.records.lookup i).isSome then .error (.duplicateId i (line_num + 1))
      else
        parseLoop (line_num + 1)
          { st with records := (st.records ++
              [(i, { clk := c, name := nm, record_type := rty, id := i,
                     parent_id := pid, description := descr, data := d,
                     end_clk := none, duration := none, child_indices := [],
                     annots := [], events := [] })]) } rest
    | .entry (.record_end c rid) =>
      match st.records.lookup rid with
      | none => .error (.unknownRecordEnd rid (line_num + 1))
      | some _ =>
        parseLoop (line_num + 1)
          { st with records := (aupdate st.records rid
              (fun r0 =>
                { r0 with end_clk := some c, duration := some (c - r0.clk) })) } rest
    | .entry (.annot nm rid descr d) =>
      match st.records.lookup rid with
      | none => .error (.unknownAnnotTarget rid (line_num + 1))
      | some _ =>
        parseLoop (line_num + 1)
          { st with records := (aupdate st.records rid
              (fun r0 => { r0 with annots := (r0.annots ++
                  [{ line_type := "annotation", name := nm, record_id := rid,
                     description := descr, data := d }]) })) } rest
    | .entry (.event c nm rid descr d) =>
      match st.records.lookup rid with
      | none => .error (.unknownEventTarget rid (line_num + 1))
      | some _ =>
        parseLoop (line_num + 1)
          { st with records := (aupdate st.records rid
              (fun r0 => { r0 with events := (r0.events ++
                  [{ clk := c, line_type := "event", name := nm,
                     record_id := rid, description := descr, data := d }]) })) } rest
    | .entry (.footer a b c d) =>
      parseLoop (line_num + 1) { st with footer := some ⟨a, b, c, d⟩ } rest

/-- The `(clk, name)` comparison used to sort the arena and each child
list (`Ordering::Less` case of `a.clk.cmp(&b.clk).then_with(|| a.name.cmp(&b.name))`;
Rust `String` order is byte-lexicographic, i.e. codepoint order). -/
def recCmpLt (a b : JetsTraceRecord) : Bool :=
  decide (a.clk < b.clk) ||
    (decide (a.clk = b.clk) && decide (a.name.toList < b.name.toList))

/-- `calculate_trace_extent` (`src/parser.rs` lines 373–395). -/
def calculate_trace_extent (all_records : List JetsTraceRecord) : Int × Int :=
  if all_records.isEmpty then (0, 1000)
  else
    let mm := all_records.foldl
      (fun (p : Int × Int) record =>
        (min p.1 record.clk,
         match record.end_clk with
         | some e => max p.2 e
         | none => max p.2 record.clk))
      (i64Max, i64Min)
    if mm.1 = i64Max then (0, 1000) else mm

/-- The post-loop arena construction of `parse_trace` (`src/parser.rs`
lines 314–369): sort the records by `(clk, name)`, index ids, wire child
positions (sorted the same way), collect roots, compute the extent. -/
def buildTrace (header : JetsTraceHeader) (footer : Option JetsTraceFooter)
    (recs : List JetsTraceRecord) : JetsTraceData :=
  let all0 := sortStable recCmpLt recs
  let id_to_index : List (Nat × Nat) := all0.enum.map (fun p => (p.2.id, p.1))
  let root_indices := (all0.enum.filter (fun p => p.2.parent_id.isNone)).map (fun p => p.1)
  let idxCmp : Nat → Nat → Bool := fun a b =>
    match all0.get? a, all0.get? b with
    | some ra, some rb => recCmpLt ra rb
    | _, _ => false
  let childrenOf : Nat → List Nat := fun pIdx =>
    sortStable idxCmp
      (all0.enum.filterMap (fun p =>
        match p.2.parent_id with
        | some pid =>
          match id_to_index.lookup pid with
          | some pi => if pi = pIdx then some p.1 else none
          | none => none
        | none => none))
  let all_records := all0.enum.map (fun p => { p.2 with child_indices := childrenOf p.1 })
  let trace_extent := calculate_trace_extent all_records
  { metadata := { header := header, footer := footer, trace_extent := trace_extent }
    root_indices := root_indices
    records_by_id := id_to_index
    all_records := all_records }

/-- `parse_trace`: run the line loop, require a header, build the arena.
A `.error` result models the `Err` return — no partial trace exists. -/
def parse_trace (ls : List RawLine) : Except ParseError JetsTraceData :=
  match parseLoop 0 { header := none, footer := none, records := [] } ls with
  | .error e => .error e
  | .ok st =>
    match st.header with
    | none => .error .missingHeader
    | some h => .ok (buildTrace h st.footer (st.records.map (fun p => p.2)))

/-- `TraceData::root_ids` for the parsed backend (`src/parser.rs` 604–609). -/
def JetsTraceData.root_ids (td : JetsTraceData) : List Nat :=
  (td.root_indices.filterMap (fun idx => td.all_records.get? idx)).map (fun r => r.id)

/-- `TraceData::get_record` for the parsed backend. -/
def JetsTraceData.get_record (td : JetsTraceData) (i : Nat) : Option JetsTraceRecord :=
  (td.records_by_id.lookup i).bind (fun index => td.all_records.get? index)

/-- `TraceRecord::num_events`. -/
def JetsTraceRecord.num_events (r : JetsTraceRecord) : Nat := r.events.length

/-- `TraceRecord::event_at` (`src/parser.rs` 670–672). -/
def JetsTraceRecord.event_at (r : JetsTraceRecord) (index : Nat) : Option JetsTraceEvent :=
  r.events.get? index

/-- The event entries of the input that reference record `i`, in input
order — the specification-side description of a record's event list. -/
def eventsFor (i : Nat) (ls : List RawLine) : List JetsTraceEvent :=
  ls.filterMap (fun l =>
    match l with
    | .entry (.event c nm rid descr d) =>
      if rid = i then
        some { clk := c, line_type := "event", name := nm, record_id := rid,
               description := descr, data := d }
      else none
    | _ => none)

/-- `end_clk` when present, otherwise `clk` — the value
`calculate_trace_extent` maximizes over. -/
def endOrClk (r : JetsTraceRecord) : Int :=
  match r.end_clk with
  | some e => e
  | none => r.clk

/-! ## Virtual (synthetic) backend: `src/virtual_reader.rs`

Only the extent computation is claim-relevant; `VirtualTraceRecord` is
modelled with the fields that function reads, and the id-keyed `HashMap` it
iterates is modelled as the list of its values. -/

/-- `VirtualTraceRecord`, restricted to the fields read by
`calculate_virtual_trace_extent`. -/
structure VirtualTraceRecord where
  id : Nat
  clk : Int
  end_clk : Option Int
deriving DecidableEq, Repr

/-- `calculate_virtual_trace_extent` (`src/virtual_reader.rs` 86–108). -/
def calculate_virtual_trace_extent (records : List VirtualTraceRecord) : Int × Int :=
  if records.isEmpty then (0, 1000)
  else
    let mm := records.foldl
      (fun (p : Int × Int) record =>
        (min p.1 record.clk,
         match record.end_clk with
         | some e => max p.2 e
         | none => max p.2 record.clk))
      (i64Max, i64Min)
    if mm.1 = i64Max then (0, 1000) else mm

/-- `end_clk` when present, otherwise `clk`, for virtual records. -/
def vEndOrClk (r : VirtualTraceRecord) : Int :=
  match r.end_clk with
  | some e => e
  | none => r.clk

/-- Linear scan: the first child index whose clock is `≥ start` (the number
of leading children with `clk < start`) — the specification-side value the
first binary search must match. -/
def lsLow (children : List DRec) (start : Int) : Nat :=
  (children.takeWhile (fun c => decide (c.clk < start))).length

/-- Linear scan: one past the last child index whose clock is `≤ end` (the
number of leading children with `clk ≤ end`, on children sorted by clock) —
the specification-side value the second binary search must match. -/
def lsHigh (children : List DRec) (endv : Int) : Nat :=
  (children.takeWhile (fun c => decide (c.clk ≤ endv))).length

/-- Input whose single record starts at `i64::MAX`, tripping the sentinel
check of `calculate_trace_extent`. -/
def exMaxClkLines : List RawLine :=
  [.entry (.header "1.0" "{}"),
   .entry (.record i64Max "r" "t" 1 none "d" none)]

/-- A plain record used to instantiate the extent characterization. -/
def exExtentRec : JetsTraceRecord :=
  { clk := 5, name := "a", record_type := "t", id := 1, parent_id := none,
    description := "d", data := none, end_clk := some 7, duration := some 2,
    child_indices := [], annots := [], events := [] }

/-! ## Visibility strategy engine: `src/domain/visibility.rs` and
`src/domain/tree_operations.rs`

The traversal is generic over `TraceRecord` and over a `VisibilityStrategy`
(four decision points).  A strategy is a record of its four methods over
`DRec`; the claims only exercise the built-in strategies, whose methods
ignore `depth` exactly as the source ones do.  The iterator `TraversalIter`
is embedded as `run`, a function from the explicit frame stack to the whole
emitted sequence: one `next()` step pops a frame, pushes the child frames
in reverse (so they pop in forward order — here: prepends them in forward
order), and emits the popped node when its `include_*` check passes. -/

/-- Size of a record's subtree; the termination measure of the traversal. -/
def recSize : DRec → Nat
  | .mk _ _ _ _ cs => 1 + (cs.attach.map (fun c => recSize c.1)).sum
decreasing_by
  have h := List.sizeOf_lt_of_mem c.2
  simp only [DRec.mk.sizeOf_spec]
  omega

/-- A visibility strategy (`trait VisibilityStrategy`). -/
structure Strategy where
  include_parent : DRec → Nat → Bool
  include_leaf : DRec → Nat → Bool
  descend_into : DRec → Nat → Bool
  child_window_hint : DRec → Nat → Option (Nat × Nat)

/-- `UnfilteredStrategy`: include everything, always descend, no hint. -/
def UnfilteredStrategy : Strategy :=
  { include_parent := fun _ _ => true
    include_leaf := fun _ _ => true
    descend_into := fun _ _ => true
    child_window_hint := fun _ _ => none }

/-- The first binary search of `ViewportFilterStrategy::child_window_hint`:
narrow `[left, right)` to the first index whose child has `clk ≥ start`
(`break` on a failed `child_at` returns the current `left`). -/
def bsLow (children : List DRec) (start : Int) (left right : Nat) : Nat :=
  if h : left < right then
    let mid := left + (right - left) / 2
    match children.get? mid with
    | some c =>
      if c.clk < start then bsLow children start (mid + 1) right
      else bsLow children start left mid
    | none => left
  else left
termination_by right - left
decreasing_by
  all_goals
    have hd : (right - left) / 2 < right - left := Nat.div_lt_self (by omega) (by omega)
    omega

/-- The second binary search of `child_window_hint`: after it, `left` is
one past the last index whose child has `clk ≤ end`. -/
def bsHigh (children : List DRec) (endv : Int) (left right : Nat) : Nat :=
  if h : left < right then
    let mid := left + (right - left) / 2
    match children.get? mid with
    | some c =>
      if c.clk ≤ endv then bsHigh children endv (mid + 1) right
      else bsHigh children endv left mid
    | none => left
  else left
termination_by right - left
decreasing_by
  all_goals
    have hd : (right - left) / 2 < right - left := Nat.div_lt_self (by omega) (by omega)
    omega

/-- `ViewportFilterStrategy::child_window_hint` (`src/domain/visibility.rs`
lines 182–241). -/
def viewportHint (start endv : Int) (parent : DRec) : Option (Nat × Nat) :=
  let num_children := parent.num_children
  if num_children = 0 then none
  else
    match parent.child_at 0 with
    | none => none
    | some first_child =>
      if first_child.subtree_depth ≠ 0 then none
      else
        let first_idx := bsLow parent.children start 0 num_children
        let left := bsHigh parent.children endv 0 num_children
        let last_idx := if left = 0 then 0 else left - 1
        if first_idx ≤ last_idx ∧ last_idx < num_children then
          some (first_idx, last_idx + 1)
        else none

/-- `ViewportFilterStrategy`: parents are structural anchors, leaves pass
the inclusive `[start, end]` window test, descent is pruned once a record
starts after `end`. -/
def ViewportFilterStrategy (start endv : Int) : Strategy :=
  { include_parent := fun _ _ => true
    include_leaf := fun leaf _ => decide (start ≤ leaf.clk) && decide (leaf.clk ≤ endv)
    descend_into := fun parent _ => decide (parent.clk ≤ endv)
    child_window_hint := fun parent _ => viewportHint start endv parent }

/-- `ExpansionAwareStrategy` (`src/domain/tree_operations.rs` 221–252):
descend only into nodes that are both expanded and allowed by the base
strategy. -/
def ExpansionAwareStrategy (expanded : List Nat) (base : Strategy) : Strategy :=
  { include_parent := base.include_parent
    include_leaf := base.include_leaf
    descend_into := fun parent depth =>
      decide (parent.id ∈ expanded) && base.descend_into parent depth
    child_window_hint := base.child_window_hint }

/-- `NodeKind`. -/
inductive NodeKind where
  | parent
  | leaf
deriving DecidableEq, Repr

/-- `VisibleNode`: one emitted traversal item. -/
structure VisibleNode where
  record : DRec
  depth : Nat
  kind : NodeKind
  branch_context : List Bool
  is_last_child : Bool

/-- `TraversalFrame`: one explicit-stack entry. -/
structure TraversalFrame where
  record : DRec
  depth : Nat
  child_index : Option Nat
  branch_context : List Bool
  is_last_child : Bool

/-- The child order a parent's frame uses: the window-hint range
`start..end.min(num_children)` when the strategy supplies one, else the
natural order `0..num_children`. -/
def orderedIndices (S : Strategy) (r : DRec) (depth : Nat) : List Nat :=
  match S.child_window_hint r depth with
  | some (s0, e0) => List.range' s0 (min e0 r.num_children - s0)
  | none => List.range r.num_children

/-- The child frames a parent's frame pushes when descent is allowed,
in the (forward) order they will pop: reverse-enumerated pushes mean the
frame of the last ordered child carries `is_last_child`. -/
def pushFrames (S : Strategy) (f : TraversalFrame) : List TraversalFrame :=
  if f.record.num_children > 0 ∧ S.descend_into f.record f.depth = true then
    let ord := orderedIndices S f.record f.depth
    ord.enum.filterMap (fun p =>
      (f.record.child_at p.2).map (fun c =>
        { record := c, depth := f.depth + 1, child_index := none,
          branch_context := f.branch_context ++ [!f.is_last_child],
          is_last_child := decide (p.1 = ord.length - 1) }))
  else []

/-- Total subtree weight of a stack, the traversal's termination measure. -/
def stackWeight (st : List TraversalFrame) : Nat :=
  (st.map (fun f => recSize f.record)).sum

/-- Sum of a `Nat`-valued map over a sublist is at most the sum over the
full list. -/
theorem sum_map_le_of_sublist (f : α → Nat) {l₁ l₂ : List α}
    (h : l₁.Sublist l₂) : (l₁.map f).sum ≤ (l₂.map f).sum := by
  induction h with
  | slnil => exact le_refl 0
  | cons a _ ih => simp only [List.map_cons, List.sum_cons]; omega
  | cons₂ a _ ih => simp only [List.map_cons, List.sum_cons]; omega

/-- Selecting positions `0, 1, …, k-1` out of a list is its `k`-prefix. -/
theorem filterMap_get_range (l : List α) :
    ∀ k, (List.range k).filterMap l.get? = l.take k := by
  induction l with
  | nil =>
    intro k
    rw [List.take_nil, List.filterMap_eq_nil]
    intro a _
    exact rfl
  | cons a t ih =>
    intro k
    cases k with
    | zero => rfl
    | succ k =>
      have hcomp : ((a :: t).get? ∘ Nat.succ) = t.get? := by
        funext i
        rfl
      rw [List.range_succ_eq_map, List.filterMap_cons, List.filterMap_map, hcomp, ih k]
      rfl

/-- Selecting positions `s, s+1, …, s+k-1` out of a list is the
corresponding slice. -/
theorem filterMap_get_range' (l : List α) (s k : Nat) :
    (List.range' s k).filterMap l.get? = (l.drop s).take k := by
  have hcomp : (l.get? ∘ fun i => s + i) = (l.drop s).get? := by
    funext i
    exact (List.get?_drop l s i).symm
  rw [List.range'_eq_map_range, List.filterMap_map, hcomp, filterMap_get_range]

/-- Enumerating then keying a `filterMap` on the element alone discards the
positions. -/
theorem enumFrom_filterMap_snd (h : α → Option β) :
    ∀ (l : List α) (n : Nat), (List.enumFrom n l).filterMap (fun p => h p.2)
      = l.filterMap h := by
  intro l
  induction l with
  | nil => intro n; rfl
  | cons a t ih =>
    intro n
    rw [List.enumFrom_cons, List.filterMap_cons, List.filterMap_cons]
    cases h a <;> rw [ih]

/-- `recSize` is positive. -/
theorem recSize_pos (r : DRec) : 1 ≤ recSize r := by
  cases r
  rw [recSize]
  omega

/-- `recSize` in terms of the child list. -/
theorem recSize_eq (r : DRec) : recSize r = 1 + (r.children.map recSize).sum := by
  cases r
  rw [recSize]
  rw [List.attach_map_val]
  rfl

theorem stackWeight_nil : stackWeight [] = 0 := rfl

theorem stackWeight_cons (f : TraversalFrame) (st : List TraversalFrame) :
    stackWeight (f :: st) = recSize f.record + stackWeight st := rfl

theorem stackWeight_append (s1 s2 : List TraversalFrame) :
    stackWeight (s1 ++ s2) = stackWeight s1 + stackWeight s2 := by
  simp [stackWeight]

/-- The records of the frames a parent pushes: the hinted (or natural)
selection of its children. -/
theorem map_record_pushFrames (S : Strategy) (f : TraversalFrame) :
    (pushFrames S f).map (fun g => g.record)
      = if f.record.num_children > 0 ∧ S.descend_into f.record f.depth = true then
          (orderedIndices S f.record f.depth).filterMap f.record.children.get?
        else [] := by
  unfold pushFrames
  split
  · rw [List.map_filterMap]
    have hfun : (fun p : Nat × Nat =>
        ((f.record.child_at p.2).map (fun c =>
          ({ record := c, depth := f.depth + 1, child_index := none,
             branch_context := f.branch_context ++ [!f.is_last_child],
             is_last_child := decide (p.1 = (orderedIndices S f.record f.depth).length - 1) }
            : TraversalFrame))).map (fun g => g.record))
        = fun p : Nat × Nat => f.record.children.get? p.2 := by
      funext p
      show ((f.record.children.get? p.2).map _).map _ = _
      cases f.record.children.get? p.2 <;> rfl
    rw [hfun]
    exact enumFrom_filterMap_snd _ _ 0
  · rfl

/-- All frames a parent pushes are first-visit frames. -/
theorem child_index_pushFrames (S : Strategy) (f : TraversalFrame) :
    ∀ g ∈ pushFrames S f, g.child_index = none := by
  intro g hg
  unfold pushFrames at hg
  split at hg
  · rcases List.mem_filterMap.mp hg with ⟨p, _, hmap⟩
    rcases Option.map_eq_some'.mp hmap with ⟨c, _, hgc⟩
    rw [← hgc]
  · cases hg

/-- The subtrees pushed for a parent weigh no more than its child list. -/
theorem weight_pushFrames_le (S : Strategy) (f : TraversalFrame) :
    stackWeight (pushFrames S f) ≤ (f.record.children.map recSize).sum := by
  have h1 : stackWeight (pushFrames S f)
      = (((pushFrames S f).map (fun g => g.record)).map recSize).sum := by
    rw [stackWeight, List.map_map]
    rfl
  rw [h1, map_record_pushFrames]
  split
  · unfold orderedIndices
    cases hh : S.child_window_hint f.record f.depth with
    | none =>
      rw [filterMap_get_range]
      have : f.record.children.take f.record.num_children = f.record.children := by
        rw [DRec.num_children, List.take_length]
      rw [this]
    | some w =>
      obtain ⟨s0, e0⟩ := w
      rw [filterMap_get_range']
      exact sum_map_le_of_sublist recSize
        (((f.record.children.drop s0).take_sublist _).trans
          (f.record.children.drop_sublist s0))
  · exact Nat.zero_le _

/-- Pushing a parent's children strictly shrinks the measure. -/
theorem weight_pushFrames_lt (S : Strategy) (f : TraversalFrame) :
    stackWeight (pushFrames S f) < recSize f.record := by
  have := weight_pushFrames_le S f
  have h2 := recSize_eq f.record
  omega

/-- The emitted item for a record popped as a structural node. -/
def parentNodeOf (f : TraversalFrame) : VisibleNode :=
  { record := f.record, depth := f.depth, kind := .parent,
    branch_context := f.branch_context, is_last_child := f.is_last_child }

/-- The emitted item for a record popped as a leaf. -/
def leafNodeOf (f : TraversalFrame) : VisibleNode :=
  { record := f.record, depth := f.depth, kind := .leaf,
    branch_context := f.branch_context, is_last_child := f.is_last_child }

/-- The whole output sequence of `TraversalIter` (`next` at
`src/domain/visibility.rs` 300–398) from a given stack: pop a frame; a
parent pushes its child frames (when expansion/strategy allow) and is
emitted when `include_parent` passes; a leaf is emitted when
`include_leaf` passes; a parent frame already past its first visit yields
nothing. -/
def run (S : Strategy) : List TraversalFrame → List VisibleNode
  | [] => []
  | f :: rest =>
    if f.record.num_children > 0 then
      match f.child_index with
      | some _ => run S rest
      | none =>
        (if S.include_parent f.record f.depth then [parentNodeOf f] else []) ++
          run S (pushFrames S f ++ rest)
    else
      (if S.include_leaf f.record f.depth then [leafNodeOf f] else []) ++ run S rest
termination_by st => stackWeight st
decreasing_by
  · have := recSize_pos f.record
    rw [stackWeight_cons]
    omega
  · have := weight_pushFrames_lt S f
    rw [stackWeight_cons, stackWeight_append]
    omega
  · have := recSize_pos f.record
    rw [stackWeight_cons]
    omega

/-- The output of the traversal from a single frame, written as a
structural recursion over the tree: what `run` produces for that frame's
subtree. -/
def visitF (S : Strategy) (f : TraversalFrame) : List VisibleNode :=
  if f.record.num_children > 0 then
    match f.child_index with
    | some _ => []
    | none =>
      (if S.include_parent f.record f.depth then [parentNodeOf f] else []) ++
        ((pushFrames S f).attach.map (fun g => visitF S g.1)).join
  else
    if S.include_leaf f.record f.depth then [leafNodeOf f] else []
termination_by recSize f.record
decreasing_by
  have hle : recSize g.1.record
      ≤ ((pushFrames S f).map (fun g => recSize g.record)).sum :=
    List.single_le_sum (fun (x : Nat) _ => Nat.zero_le x) _
      (List.mem_map_of_mem (fun g => recSize g.record) g.2)
  have hlt := weight_pushFrames_lt S f
  rw [stackWeight] at hlt
  omega

/-- The records the traversal visits (pops as first-visit frames) in the
subtree of a frame, in pre-order: the frame's record, then — when children
are pushed — the visited records of each pushed subtree. -/
def visitedF (S : Strategy) (f : TraversalFrame) : List DRec :=
  match f.child_index with
  | some _ => []
  | none => f.record :: ((pushFrames S f).attach.map (fun g => visitedF S g.1)).join
termination_by recSize f.record
decreasing_by
  have hle : recSize g.1.record
      ≤ ((pushFrames S f).map (fun g => recSize g.record)).sum :=
    List.single_le_sum (fun (x : Nat) _ => Nat.zero_le x) _
      (List.mem_map_of_mem (fun g => recSize g.record) g.2)
  have hlt := weight_pushFrames_lt S f
  rw [stackWeight] at hlt
  omega

/-- `FilteredVisibleNode` (`src/domain/tree_operations.rs` 198–212). -/
structure FilteredVisibleNode where
  record_id : Nat
  row_index : Nat
  depth : Nat
  branch_context : List Bool
  is_last_child : Bool
deriving DecidableEq, Repr

/-- The initial stack built by `TraversalIter::new`: one depth-0 frame per
root, the last root flagged `is_last_child`. -/
def rootFrames (roots : List DRec) : List TraversalFrame :=
  roots.enum.map (fun p =>
    { record := p.2, depth := 0, child_index := none, branch_context := [],
      is_last_child := decide (p.1 = roots.length - 1) })

/-- `collect_visible_nodes_with_strategy_generic`
(`src/domain/tree_operations.rs` 270–305): wrap the strategy with the
expansion filter, traverse the roots, and assign zero-based row indices in
emission order.  The roots are passed directly (the source obtains them
from `root_ids`/`get_record` of the backend). -/
def collect_visible_nodes_with_strategy (roots : List DRec) (expanded : List Nat)
    (base : Strategy) : List FilteredVisibleNode :=
  (run (ExpansionAwareStrategy expanded base) (rootFrames roots)).enum.map
    (fun p =>
      { record_id := p.2.record.id, row_index := p.1, depth := p.2.depth,
        branch_context := p.2.branch_context, is_last_child := p.2.is_last_child })

/-- Whether the viewport-filter traversal emits a visited record: parents
always (structural anchors), leaves exactly when their clock lies in the
inclusive window. -/
def viewportKeep (s e : Int) (r : DRec) : Bool :=
  !r.children.isEmpty || (decide (s ≤ r.clk) && decide (r.clk ≤ e))

/-- A leaf record with an id and a clock, for the traversal examples. -/
def exLeaf (i : Nat) (c : Int) : DRec := .mk i c "" none []

/-- Depth-3 example tree for C3: root 0 → node 1 → leaf 2. -/
def exC3root : DRec := .mk 0 0 "" none [.mk 1 1 "" none [exLeaf 2 2]]

/-- Example parent (id 10, clk 0) with leaf children at clocks
50/100/150/200/250 (ids 11–15), for the viewport-filter claims. -/
def exViewportParent : DRec :=
  .mk 10 0 "" none
    [exLeaf 11 50, exLeaf 12 100, exLeaf 13 150, exLeaf 14 200, exLeaf 15 250]

/-- A frame for a subtree rooted at `r`, as first pushed. -/
def frameOf (r : DRec) : TraversalFrame :=
  { record := r, depth := 0, child_index := none, branch_context := [],
    is_last_child := true }

/-- The depth-1 frame pushed for a leaf child of `exViewportParent`. -/
def exWinFrame (i : Nat) (c : Int) (last : Bool) : TraversalFrame :=
  { record := exLeaf i c, depth := 1, child_index := none,
    branch_context := [false], is_last_child := last }

/-- The middle node of the C3 example tree (id 1, one leaf child). -/
def exC3mid : DRec := .mk 1 1 "" none [exLeaf 2 2]

/-- The depth-1 frame pushed for `exC3mid` under `exC3root`. -/
def exC3frame1 : TraversalFrame :=
  { record := exC3mid, depth := 1, child_index := none,
    branch_context := [false], is_last_child := true }

/-- The depth-2 frame pushed for the C3 example's leaf. -/
def exC3frame2 : TraversalFrame :=
  { record := exLeaf 2 2, depth := 2, child_index := none,
    branch_context := [false, false], is_last_child := true }

/-- C1 example input: a header, a parentless record (id 1) and a record
whose parent id 99 resolves to no record (id 2). -/
def exC1Lines : List RawLine :=
  [.entry (.header "v" "m"),
   .entry (.record 0 "a" "t" 1 none "" none),
   .entry (.record 5 "b" "t" 2 (some 99) "" none)]

/-- C2 example input: one record receiving two events whose clocks arrive
out of order (10 then 5). -/
def exC2Lines : List RawLine :=
  [.entry (.header "v" "m"),
   .entry (.record 0 "a" "t" 1 none "" none),
   .entry (.event 10 "e1" 1 "" none),
   .entry (.event 5 "e2" 1 "" none)]

/-- C9 example input: a record line with no header anywhere. -/
def exC9NoHeader : List RawLine :=
  [.entry (.record 0 "a" "t" 1 none "" none)]

/-- The record id a line defines, if it is a record line. -/
def recIdOf : RawLine → Option Nat
  | .entry (.record _ _ _ i _ _ _) => some i
  | _ => none

/-- The record id a line references, if it is a record_end, annotation or
event line. -/
def refIdOf : RawLine → Option Nat
  | .entry (.record_end _ rid) => some rid
  | .entry (.annot _ rid _ _) => some rid
  | .entry (.event _ _ rid _ _) => some rid
  | _ => none

/-- Whether a line is a header entry. -/
def isHeaderLine : RawLine → Bool
  | .entry (.header _ _) => true
  | _ => false

/-- Spec-side: line `k` references a record id no earlier record line
defines (a dangling record_end/annotation/event reference). -/
def danglingRefAt (ls : List RawLine) (k : Nat) : Bool :=
  match (ls.get? k).bind refIdOf with
  | some rid => !(decide (rid ∈ (ls.take k).filterMap recIdOf))
  | none => false

/-- Spec-side (from the failure-mode sentences of the spec): the input
contains a malformed line, a header entry that is not the first line, a
duplicate record id, a reference to an unknown record id, or no header at
all. -/
def specParseFailure (ls : List RawLine) : Prop :=
  RawLine.malformed ∈ ls
  ∨ (∃ hl ∈ ls.drop 1, isHeaderLine hl = true)
  ∨ ¬ (ls.filterMap recIdOf).Nodup
  ∨ (∃ k, k < ls.length ∧ danglingRefAt ls k = true)
  ∨ (∀ l ∈ ls, isHeaderLine l = false)

/-- The per-line acceptance scan of the parse loop, tracking only the line
number and the set of defined record ids: the pure condition under which
the stateful loop succeeds. -/
def loopOK : Nat → List Nat → List RawLine → Bool
  | _, _, [] => true
  | n, ids, l :: rest =>
    match l with
    | .blank => loopOK (n + 1) ids rest
    | .malformed => false
    | .entry (.header _ _) => decide (n = 0) && loopOK (n + 1) ids rest
    | .entry (.record _ _ _ i _ _ _) =>
      !(decide (i ∈ ids)) && loopOK (n + 1) (ids ++ [i]) rest
    | .entry (.record_end _ rid) => decide (rid ∈ ids) && loopOK (n + 1) ids rest
    | .entry (.annot _ rid _ _) => decide (rid ∈ ids) && loopOK (n + 1) ids rest
    | .entry (.event _ _ rid _ _) => decide (rid ∈ ids) && loopOK (n + 1) ids rest
    | .entry (.footer _ _ _ _) => loopOK (n + 1) ids rest

/-- The per-line condition the parse loop's success imposes, stated
positionally: no malformed line, headers only at absolute line 0, every
record id fresh, every reference resolvable to an earlier record (or one
of the `ids` already defined). -/
def specLoopCond (n : Nat) (ids : List Nat) (ls : List RawLine) : Prop :=
  (RawLine.malformed ∉ ls)
  ∧ (∀ k hl, ls.get? k = some hl → isHeaderLine hl = true → n + k = 0)
  ∧ (∀ k i, (ls.get? k).bind recIdOf = some i →
      i ∉ ids ∧ i ∉ (ls.take k).filterMap recIdOf)
  ∧ (∀ k rid, (ls.get? k).bind refIdOf = some rid →
      rid ∈ ids ∨ rid ∈ (ls.take k).filterMap recIdOf)

end Jets

namespace Jets

/-! ## Stable-sort lemmas -/

theorem insertOrd_perm (lt : α → α → Bool) (a : α) (l : List α) :
    List.Perm (insertOrd lt a l) (a :: l) := by
  induction l with
  | nil => exact List.Perm.refl _
  | cons b t ih =>
    simp only [insertOrd]
    split
    · exact (ih.cons b).trans (List.Perm.swap a b t)
    · exact List.Perm.refl _

theorem sortStable_perm (lt : α → α → Bool) (l : List α) :
    List.Perm (sortStable lt l) l := by
  induction l with
  | nil => exact List.Perm.refl _
  | cons a t ih =>
    exact (insertOrd_perm lt a (sortStable lt t)).trans (ih.cons a)

theorem insertOrd_pairwise [LinearOrder β] (key : α → β) (a : α) {l : List α}
    (h : l.Pairwise (fun x y => ¬ key y < key x)) :
    (insertOrd (ltOf key) a l).Pairwise (fun x y => ¬ key y < key x) := by
  induction l with
  | nil => simp [insertOrd]
  | cons b t ih =>
    rcases List.pairwise_cons.mp h with ⟨hb, ht⟩
    simp only [insertOrd, ltOf]
    by_cases hba : key b < key a
    · rw [if_pos (by simpa using hba)]
      refine List.pairwise_cons.mpr ⟨?_, ih ht⟩
      intro x hx
      rcases List.mem_cons.mp ((insertOrd_perm _ a t).subset hx) with hxa | hxt
      · subst hxa; exact lt_asymm hba
      · exact hb x hxt
    · rw [if_neg (by simpa using hba)]
      refine List.pairwise_cons.mpr ⟨?_, h⟩
      intro x hx
      rcases List.mem_cons.mp hx with hxb | hxt
      · subst hxb; exact hba
      · intro hlt
        exact hba (lt_of_le_of_lt (le_of_not_lt (hb x hxt)) hlt)

theorem sortStable_pairwise [LinearOrder β] (key : α → β) (l : List α) :
    (sortStable (ltOf key) l).Pairwise (fun x y => ¬ key y < key x) := by
  induction l with
  | nil => simp [sortStable]
  | cons a t ih => exact insertOrd_pairwise key a ih

theorem eq_of_perm_of_pairwise {r : α → α → Prop} :
    ∀ {l₁ l₂ : List α}, List.Perm l₁ l₂ → l₁.Pairwise r → l₂.Pairwise r →
      (∀ x ∈ l₁, ∀ y ∈ l₁, r x y → r y x → x = y) → l₁ = l₂ := by
  intro l₁
  induction l₁ with
  | nil => intro l₂ hp _ _ _; exact hp.nil_eq
  | cons a t ih =>
    intro l₂ hp h1 h2 hanti
    cases l₂ with
    | nil => exact absurd hp.symm.nil_eq (by simp)
    | cons b t₂ =>
      rcases List.pairwise_cons.mp h1 with ⟨ha, ht⟩
      rcases List.pairwise_cons.mp h2 with ⟨hbr, ht₂⟩
      have hab : a = b := by
        rcases List.mem_cons.mp (hp.subset (List.mem_cons_self a t)) with h | hat₂
        · exact h
        · rcases List.mem_cons.mp (hp.symm.subset (List.mem_cons_self b t₂)) with h | hbt
          · exact h.symm
          · exact hanti a (List.mem_cons_self a t) b (List.mem_cons_of_mem a hbt)
              (ha b hbt) (hbr a hat₂)
      subst hab
      have htp := hp.cons_inv
      have : t = t₂ := by
        refine ih htp ht (by
          refine List.Pairwise.imp_of_mem ?_ ht₂
          intro x y _ _ hxy; exact hxy) ?_
        intro x hx y hy
        exact hanti x (List.mem_cons_of_mem a hx) y (List.mem_cons_of_mem a hy)
      rw [this]

theorem sortStable_desc_eq_reverse [LinearOrder β] (key : α → β) {l : List α}
    (hd : l.Pairwise (fun x y => key x ≠ key y)) :
    sortStable (fun a b => decide (key b < key a)) l
      = (sortStable (fun a b => decide (key a < key b)) l).reverse := by
  have hfunD : (fun a b => decide (key b < key a))
      = ltOf (fun a => OrderDual.toDual (key a)) := by
    funext a b
    simp [ltOf]
  have hfunA : (fun a b : α => decide (key a < key b)) = ltOf key := rfl
  rw [hfunD, hfunA]
  have hpermL : List.Perm (sortStable (ltOf (fun a => OrderDual.toDual (key a))) l) l :=
    sortStable_perm _ l
  have hpermR : List.Perm (sortStable (ltOf key) l).reverse l :=
    (List.reverse_perm _).trans (sortStable_perm _ l)
  have hpwL : (sortStable (ltOf (fun a => OrderDual.toDual (key a))) l).Pairwise
      (fun x y => ¬ key x < key y) := by
    refine (sortStable_pairwise (fun a => OrderDual.toDual (key a)) l).imp ?_
    intro x y h
    simpa using h
  have hpwR : ((sortStable (ltOf key) l).reverse).Pairwise
      (fun x y => ¬ key x < key y) := by
    rw [List.pairwise_reverse]
    exact sortStable_pairwise key l
  refine eq_of_perm_of_pairwise (hpermL.trans hpermR.symm) hpwL hpwR ?_
  intro x hx y hy hxy hyx
  have hkeq : key x = key y := le_antisymm (le_of_not_lt hyx) (le_of_not_lt hxy)
  by_contra hne
  have hsym : Symmetric (fun x y : α => key x ≠ key y) := by
    intro x y h h'
    exact h h'.symm
  exact List.Pairwise.forall hsym hd (hpermL.subset hx) (hpermL.subset hy) hne hkeq

/-! ## `ChildKey` order lemmas -/

theorem childKey_lt_eq (a b : ChildKey) : ChildKey.lt a b = decide (a.toL < b.toL) := by
  rw [Bool.eq_iff_iff, decide_eq_true_eq]
  obtain ⟨d1, s1, u1⟩ := a
  obtain ⟨d2, s2, u2⟩ := b
  cases d1 <;> cases d2 <;> cases s1 <;> cases s2 <;> cases u1 <;> cases u2 <;>
    simp [ChildKey.lt, ChildKey.toL, owbot, optLt, optEqb, Prod.Lex.lt_iff,
      WithBot.bot_lt_coe, WithBot.coe_lt_coe, String.lt_iff_toList_lt]

theorem descrKey_toL_lt (x y : String) :
    (ChildKey.mk (some x) none none).toL < (ChildKey.mk (some y) none none).toL ↔ x < y := by
  simp [ChildKey.toL, owbot, Prod.Lex.lt_iff, WithBot.coe_lt_coe, lt_self_iff_false]

theorem descrKey_toL_inj {x y : String}
    (h : (ChildKey.mk (some x) none none).toL = (ChildKey.mk (some y) none none).toL) :
    x = y := by
  simp only [ChildKey.toL, owbot, toLex_inj, Prod.mk.injEq] at h
  exact_mod_cast h.1

theorem durKey_toL_lt_none (x : Int) :
    (ChildKey.mk none none none).toL < (ChildKey.mk none none (some x)).toL := by
  simp [ChildKey.toL, owbot, Prod.Lex.lt_iff, WithBot.bot_lt_coe, lt_self_iff_false]

theorem childSortItems_mem {parent : DRec} {spec : SortSpec} {p : Nat × ChildKey}
    (hp : p ∈ childSortItems parent spec) :
    ∃ c, parent.child_at p.1 = some c ∧ p.2 = ChildKey.from_record c spec.key := by
  rcases List.mem_filterMap.mp hp with ⟨i, _, hmap⟩
  rcases Option.map_eq_some'.mp hmap with ⟨c, hc, hpc⟩
  subst hpc
  exact ⟨c, hc, rfl⟩

theorem sort_child_indices_asc_eq (parent : DRec) (k : SortKey) :
    sort_child_indices_for_parent parent ⟨k, SortDir.asc⟩
      = (sortStable (ltOf pairKey) (childSortItems parent ⟨k, SortDir.asc⟩)).map
          (fun p => p.1) := by
  have hc : (fun a b : Nat × ChildKey => ChildKey.lt a.2 b.2) = ltOf pairKey := by
    funext a b
    rw [childKey_lt_eq]
    rfl
  exact congrArg
    (fun f => (sortStable f (childSortItems parent ⟨k, SortDir.asc⟩)).map
      (fun p : Nat × ChildKey => p.1)) hc

theorem sort_child_indices_desc_eq (parent : DRec) (k : SortKey) :
    sort_child_indices_for_parent parent ⟨k, SortDir.desc⟩
      = (sortStable (fun a b => decide (pairKey b < pairKey a))
          (childSortItems parent ⟨k, SortDir.desc⟩)).map (fun p => p.1) := by
  have hc : (fun a b : Nat × ChildKey => ChildKey.lt b.2 a.2)
      = fun a b => decide (pairKey b < pairKey a) := by
    funext a b
    rw [childKey_lt_eq]
    rfl
  exact congrArg
    (fun f => (sortStable f (childSortItems parent ⟨k, SortDir.desc⟩)).map
      (fun p : Nat × ChildKey => p.1)) hc

/-! ## Fold lemmas for the trace-extent computation -/

theorem foldl_min_le_init (f : α → Int) (l : List α) (a : Int) :
    l.foldl (fun m r => min m (f r)) a ≤ a := by
  induction l generalizing a with
  | nil => exact le_refl a
  | cons x t ih => exact le_trans (ih (min a (f x))) (min_le_left a (f x))

theorem foldl_min_le_mem (f : α → Int) (l : List α) (a : Int) :
    ∀ r ∈ l, l.foldl (fun m r => min m (f r)) a ≤ f r := by
  induction l generalizing a with
  | nil => intro r hr; cases hr
  | cons x t ih =>
    intro r hr
    rcases List.mem_cons.mp hr with hrx | hrt
    · subst hrx
      exact le_trans (foldl_min_le_init f t (min a (f r))) (min_le_right a (f r))
    · exact ih (min a (f x)) r hrt

theorem foldl_min_cases (f : α → Int) (l : List α) (a : Int) :
    l.foldl (fun m r => min m (f r)) a = a ∨
      ∃ r ∈ l, l.foldl (fun m r => min m (f r)) a = f r := by
  induction l generalizing a with
  | nil => exact Or.inl rfl
  | cons x t ih =>
    rcases ih (min a (f x)) with h | ⟨r, hr, h⟩
    · rcases min_choice a (f x) with hm | hm
      · exact Or.inl (by rw [List.foldl_cons, h, hm])
      · exact Or.inr ⟨x, List.mem_cons_self x t, by rw [List.foldl_cons, h, hm]⟩
    · exact Or.inr ⟨r, List.mem_cons_of_mem x hr, h⟩

theorem foldl_max_ge_init (f : α → Int) (l : List α) (a : Int) :
    a ≤ l.foldl (fun m r => max m (f r)) a := by
  induction l generalizing a with
  | nil => exact le_refl a
  | cons x t ih => exact le_trans (le_max_left a (f x)) (ih (max a (f x)))

theorem foldl_max_ge_mem (f : α → Int) (l : List α) (a : Int) :
    ∀ r ∈ l, f r ≤ l.foldl (fun m r => max m (f r)) a := by
  induction l generalizing a with
  | nil => intro r hr; cases hr
  | cons x t ih =>
    intro r hr
    rcases List.mem_cons.mp hr with hrx | hrt
    · subst hrx
      exact le_trans (le_max_right a (f r)) (foldl_max_ge_init f t (max a (f r)))
    · exact ih (max a (f x)) r hrt

theorem foldl_max_cases (f : α → Int) (l : List α) (a : Int) :
    l.foldl (fun m r => max m (f r)) a = a ∨
      ∃ r ∈ l, l.foldl (fun m r => max m (f r)) a = f r := by
  induction l generalizing a with
  | nil => exact Or.inl rfl
  | cons x t ih =>
    rcases ih (max a (f x)) with h | ⟨r, hr, h⟩
    · rcases max_choice a (f x) with hm | hm
      · exact Or.inl (by rw [List.foldl_cons, h, hm])
      · exact Or.inr ⟨x, List.mem_cons_self x t, by rw [List.foldl_cons, h, hm]⟩
    · exact Or.inr ⟨r, List.mem_cons_of_mem x hr, h⟩

theorem foldl_minmax_split (f g : α → Int) (l : List α) (a b : Int) :
    l.foldl (fun (p : Int × Int) r => (min p.1 (f r), max p.2 (g r))) (a, b)
      = (l.foldl (fun m r => min m (f r)) a, l.foldl (fun m r => max m (g r)) b) := by
  induction l generalizing a b with
  | nil => rfl
  | cons x t ih => exact ih (min a (f x)) (max b (g x))

/-- The characterization of both extent computations, proved once over an
abstract record type with `clk` and "end or clk" projections. -/
theorem extent_spec_core (fclk fend : α → Int)
    (body : Int × Int → α → Int × Int)
    (hbody : body = fun p r => (min p.1 (fclk r), max p.2 (fend r)))
    (l : List α) (hne : l ≠ []) (hex : ∃ r0 ∈ l, fclk r0 < i64Max)
    (hlow : ∀ r ∈ l, i64Min ≤ fend r) :
    ∃ rm ∈ l, ∃ rM ∈ l,
      (let mm := l.foldl body (i64Max, i64Min)
       if mm.1 = i64Max then ((0 : Int), (1000 : Int)) else mm)
        = (fclk rm, fend rM)
      ∧ (∀ r ∈ l, fclk rm ≤ fclk r) ∧ (∀ r ∈ l, fend r ≤ fend rM) := by
  subst hbody
  rw [foldl_minmax_split]
  rcases hex with ⟨r0, hr0, hr0lt⟩
  have hmnlt : l.foldl (fun m r => min m (fclk r)) i64Max < i64Max :=
    lt_of_le_of_lt (foldl_min_le_mem fclk l i64Max r0 hr0) hr0lt
  have hmnne : l.foldl (fun m r => min m (fclk r)) i64Max ≠ i64Max := ne_of_lt hmnlt
  rcases foldl_min_cases fclk l i64Max with hmn | ⟨rm, hrm, hmn⟩
  · exact absurd hmn hmnne
  · have hrmne : fclk rm ≠ i64Max := hmn ▸ hmnne
    rcases foldl_max_cases fend l i64Min with hmx | ⟨rM, hrM, hmx⟩
    · rcases List.exists_mem_of_ne_nil l hne with ⟨r1, hr1⟩
      have hle : fend r1 ≤ i64Min := hmx ▸ foldl_max_ge_mem fend l i64Min r1 hr1
      have heq : fend r1 = i64Min := le_antisymm hle (hlow r1 hr1)
      refine ⟨rm, hrm, r1, hr1, ?_, ?_, ?_⟩
      · show (if _ = i64Max then ((0 : Int), (1000 : Int)) else _) = _
        rw [hmn, hmx, if_neg hrmne, heq]
      · intro r hr
        exact hmn ▸ foldl_min_le_mem fclk l i64Max r hr
      · intro r hr
        have h2 := foldl_max_ge_mem fend l i64Min r hr
        rw [hmx] at h2
        rw [heq]
        exact h2
    · refine ⟨rm, hrm, rM, hrM, ?_, ?_, ?_⟩
      · show (if _ = i64Max then ((0 : Int), (1000 : Int)) else _) = _
        rw [hmn, hmx, if_neg hrmne]
      · intro r hr
        exact hmn ▸ foldl_min_le_mem fclk l i64Max r hr
      · intro r hr
        exact hmx ▸ foldl_max_ge_mem fend l i64Min r hr

/-! ## Traversal unfolding lemmas and the stack/recursion equivalence -/

theorem run_nil (S : Strategy) : run S [] = [] := by
  rw [run]

theorem run_cons_second_visit (S : Strategy) (f : TraversalFrame)
    (rest : List TraversalFrame) (hpar : f.record.num_children > 0) {k : Nat}
    (hci : f.child_index = some k) :
    run S (f :: rest) = run S rest := by
  rw [run, if_pos hpar, hci]

theorem run_cons_parent (S : Strategy) (f : TraversalFrame)
    (rest : List TraversalFrame) (hpar : f.record.num_children > 0)
    (hci : f.child_index = none) :
    run S (f :: rest)
      = (if S.include_parent f.record f.depth then [parentNodeOf f] else []) ++
          run S (pushFrames S f ++ rest) := by
  rw [run, if_pos hpar, hci]

theorem run_cons_leaf (S : Strategy) (f : TraversalFrame)
    (rest : List TraversalFrame) (hpar : ¬ f.record.num_children > 0) :
    run S (f :: rest)
      = (if S.include_leaf f.record f.depth then [leafNodeOf f] else []) ++
          run S rest := by
  rw [run, if_neg hpar]

theorem visitF_second_visit (S : Strategy) (f : TraversalFrame)
    (hpar : f.record.num_children > 0) {k : Nat} (hci : f.child_index = some k) :
    visitF S f = [] := by
  rw [visitF, if_pos hpar, hci]

theorem join_cons_eq (a : List β) (L : List (List β)) :
    (a :: L).join = a ++ L.join := rfl

theorem join_append_eq (L1 L2 : List (List β)) :
    (L1 ++ L2).join = L1.join ++ L2.join := by
  induction L1 with
  | nil => rfl
  | cons a L ih =>
    rw [List.cons_append, join_cons_eq, join_cons_eq, ih, List.append_assoc]

theorem visitF_parent (S : Strategy) (f : TraversalFrame)
    (hpar : f.record.num_children > 0) (hci : f.child_index = none) :
    visitF S f
      = (if S.include_parent f.record f.depth then [parentNodeOf f] else []) ++
          ((pushFrames S f).map (visitF S)).join := by
  rw [visitF, if_pos hpar, hci]
  show (if S.include_parent f.record f.depth then [parentNodeOf f] else []) ++
      ((pushFrames S f).attach.map (fun g => visitF S g.1)).join = _
  rw [List.attach_map_val (pushFrames S f) (visitF S)]

theorem visitF_leaf (S : Strategy) (f : TraversalFrame)
    (hpar : ¬ f.record.num_children > 0) :
    visitF S f = if S.include_leaf f.record f.depth then [leafNodeOf f] else [] := by
  rw [visitF, if_neg hpar]

theorem visitedF_second_visit (S : Strategy) (f : TraversalFrame) {k : Nat}
    (hci : f.child_index = some k) : visitedF S f = [] := by
  rw [visitedF, hci]

theorem visitedF_first_visit (S : Strategy) (f : TraversalFrame)
    (hci : f.child_index = none) :
    visitedF S f = f.record :: ((pushFrames S f).map (visitedF S)).join := by
  rw [visitedF, hci]
  show f.record :: ((pushFrames S f).attach.map (fun g => visitedF S g.1)).join = _
  rw [List.attach_map_val (pushFrames S f) (visitedF S)]

theorem pushFrames_of_leaf (S : Strategy) (f : TraversalFrame)
    (hpar : ¬ f.record.num_children > 0) : pushFrames S f = [] := by
  unfold pushFrames
  rw [if_neg]
  intro hc
  exact hpar hc.1

theorem pushFrames_of_no_descend (S : Strategy) (f : TraversalFrame)
    (hd : S.descend_into f.record f.depth = false) : pushFrames S f = [] := by
  unfold pushFrames
  rw [if_neg]
  intro hc
  rw [hd] at hc
  exact Bool.false_ne_true hc.2

/-- The stack machine equals the per-frame structural recursion, frame by
frame. -/
theorem run_eq_join_visitF (S : Strategy) (st : List TraversalFrame) :
    run S st = (st.map (visitF S)).join := by
  have H : ∀ n (st : List TraversalFrame), stackWeight st ≤ n →
      run S st = (st.map (visitF S)).join := by
    intro n
    induction n with
    | zero =>
      intro st hst
      cases st with
      | nil => rw [run_nil]; rfl
      | cons f rest =>
        exfalso
        have := recSize_pos f.record
        rw [stackWeight_cons] at hst
        omega
    | succ n ih =>
      intro st hst
      cases st with
      | nil => rw [run_nil]; rfl
      | cons f rest =>
        rw [stackWeight_cons] at hst
        have hpos := recSize_pos f.record
        rw [List.map_cons, join_cons_eq]
        by_cases hpar : f.record.num_children > 0
        · cases hci : f.child_index with
          | some k =>
            rw [run_cons_second_visit S f rest hpar hci,
              visitF_second_visit S f hpar hci, List.nil_append]
            exact ih rest (by omega)
          | none =>
            rw [run_cons_parent S f rest hpar hci, visitF_parent S f hpar hci,
              List.append_assoc]
            congr 1
            have hw := weight_pushFrames_lt S f
            have hrec := ih (pushFrames S f ++ rest)
              (by rw [stackWeight_append]; omega)
            rw [hrec, List.map_append, join_append_eq]
        · rw [run_cons_leaf S f rest hpar, visitF_leaf S f hpar]
          congr 1
          exact ih rest (by omega)
  exact H (stackWeight st) st le_rfl

theorem map_join_eq (f : β → γ) (L : List (List β)) :
    (L.join).map f = (L.map (List.map f)).join := by
  induction L with
  | nil => rfl
  | cons a L ih =>
    rw [join_cons_eq, List.map_append, ih, List.map_cons, join_cons_eq]

theorem filter_join_eq (p : β → Bool) (L : List (List β)) :
    (L.join).filter p = (L.map (List.filter p)).join := by
  induction L with
  | nil => rfl
  | cons a L ih =>
    rw [join_cons_eq, List.filter_append, ih, List.map_cons, join_cons_eq]

theorem weight_mem_pushFrames {S : Strategy} {f : TraversalFrame}
    {g : TraversalFrame} (hg : g ∈ pushFrames S f) :
    recSize g.record < recSize f.record := by
  have hle : recSize g.record
      ≤ ((pushFrames S f).map (fun g => recSize g.record)).sum :=
    List.single_le_sum (fun (x : Nat) _ => Nat.zero_le x) _
      (List.mem_map_of_mem (fun g => recSize g.record) hg)
  have hlt := weight_pushFrames_lt S f
  rw [stackWeight] at hlt
  omega

/-- Per-frame filter characterization of the viewport-filtered traversal:
the emitted records are exactly the visited records that pass
`viewportKeep` (parents always, leaves when inside the window), in order. -/
theorem visitF_viewport_filter (s e : Int) (expanded : List Nat) :
    ∀ (f : TraversalFrame), f.child_index = none →
      (visitF (ExpansionAwareStrategy expanded (ViewportFilterStrategy s e)) f).map
          (fun v => v.record)
        = (visitedF (ExpansionAwareStrategy expanded (ViewportFilterStrategy s e)) f).filter
            (viewportKeep s e) := by
  intro f0 hci0
  have H : ∀ n (f : TraversalFrame), recSize f.record ≤ n → f.child_index = none →
      (visitF (ExpansionAwareStrategy expanded (ViewportFilterStrategy s e)) f).map
          (fun v => v.record)
        = (visitedF (ExpansionAwareStrategy expanded (ViewportFilterStrategy s e)) f).filter
            (viewportKeep s e) := by
    intro n
    induction n with
    | zero =>
      intro f hw _
      exfalso
      have := recSize_pos f.record
      omega
    | succ n ih =>
      intro f hw hci
      set S := ExpansionAwareStrategy expanded (ViewportFilterStrategy s e) with hS
      by_cases hpar : f.record.num_children > 0
      · rw [visitF_parent S f hpar hci, visitedF_first_visit S f hci]
        have hkeep : viewportKeep s e f.record = true := by
          have hne : f.record.children.isEmpty = false := by
            rw [DRec.num_children] at hpar
            cases hch : f.record.children with
            | nil => rw [hch] at hpar; cases hpar
            | cons a t => rfl
          rw [viewportKeep, hne]
          rfl
        rw [List.filter_cons_of_pos hkeep]
        rw [if_pos (show S.include_parent f.record f.depth = true from rfl)]
        rw [List.singleton_append, List.map_cons]
        congr 1
        rw [map_join_eq, filter_join_eq, List.map_map, List.map_map]
        congr 1
        refine List.map_congr_left ?_
        intro g hg
        have hlt := weight_mem_pushFrames hg
        exact ih g (by omega) (child_index_pushFrames S f g hg)
      · rw [visitF_leaf S f hpar, visitedF_first_visit S f hci,
          pushFrames_of_leaf S f hpar]
        have hch : f.record.children.isEmpty = true := by
          rw [DRec.num_children] at hpar
          cases hc : f.record.children with
          | nil => rfl
          | cons a t => rw [hc] at hpar; simp at hpar
        have hkeep : viewportKeep s e f.record
            = S.include_leaf f.record f.depth := by
          rw [viewportKeep, hch]
          rfl
        cases hinc : S.include_leaf f.record f.depth with
        | true =>
          rw [if_pos rfl, List.map_nil]
          show [f.record] = List.filter (viewportKeep s e) [f.record]
          rw [List.filter_cons_of_pos (by rw [hkeep]; exact hinc)]
          rfl
        | false =>
          rw [if_neg (by simp), List.map_nil]
          show ([] : List DRec) = List.filter (viewportKeep s e) [f.record]
          rw [List.filter_cons_of_neg (by rw [hkeep, hinc]; simp)]
          rfl
  exact H (recSize f0.record) f0 le_rfl hci0

theorem rootFrames_child_index (roots : List DRec) :
    ∀ f ∈ rootFrames roots, f.child_index = none := by
  intro f hf
  rcases List.mem_map.mp hf with ⟨p, _, hfp⟩
  rw [← hfp]

theorem join_map_singleton (l : List α) (h : α → β) :
    (l.map (fun x => [h x])).join = l.map h := by
  induction l with
  | nil => rfl
  | cons a t ih => rw [List.map_cons, join_cons_eq, ih, List.map_cons, List.singleton_append]

/-- A frame the strategy refuses to descend into (or a leaf) contributes
exactly its own record, provided both inclusion checks pass. -/
theorem visitF_no_descend_record (S : Strategy) (f : TraversalFrame)
    (hnd : S.descend_into f.record f.depth = false ∨ ¬ f.record.num_children > 0)
    (hip : S.include_parent f.record f.depth = true)
    (hil : S.include_leaf f.record f.depth = true)
    (hci : f.child_index = none) :
    (visitF S f).map (fun v => v.record) = [f.record] := by
  by_cases hpar : f.record.num_children > 0
  · have hnd' : S.descend_into f.record f.depth = false := by
      rcases hnd with h | h
      · exact h
      · exact absurd hpar h
    rw [visitF_parent S f hpar hci, pushFrames_of_no_descend S f hnd', if_pos hip]
    rfl
  · rw [visitF_leaf S f hpar, if_pos hil]
    rfl

/-- With no window hint and descent allowed, the pushed frames carry
exactly the children, in order. -/
theorem pushFrames_natural (S : Strategy) (f : TraversalFrame)
    (hd : S.descend_into f.record f.depth = true)
    (hh : S.child_window_hint f.record f.depth = none)
    (hpar : f.record.num_children > 0) :
    (pushFrames S f).map (fun g => g.record) = f.record.children := by
  rw [map_record_pushFrames, if_pos ⟨hpar, hd⟩]
  unfold orderedIndices
  rw [hh, filterMap_get_range, DRec.num_children, List.take_length]

theorem run_single (S : Strategy) (f : TraversalFrame) :
    run S [f] = visitF S f := by
  rw [run_eq_join_visitF, List.map_cons, List.map_nil, join_cons_eq]
  show visitF S f ++ [] = _
  rw [List.append_nil]

theorem collect_map_rid (roots : List DRec) (expanded : List Nat) (base : Strategy) :
    (collect_visible_nodes_with_strategy roots expanded base).map (fun v => v.record_id)
      = (run (ExpansionAwareStrategy expanded base) (rootFrames roots)).map
          (fun v => v.record.id) := by
  unfold collect_visible_nodes_with_strategy
  rw [List.map_map]
  have h1 : ((fun v : FilteredVisibleNode => v.record_id) ∘ (fun p : Nat × VisibleNode =>
      ({ record_id := p.2.record.id, row_index := p.1, depth := p.2.depth,
         branch_context := p.2.branch_context, is_last_child := p.2.is_last_child }
        : FilteredVisibleNode)))
      = (fun v : VisibleNode => v.record.id) ∘ (fun p : Nat × VisibleNode => p.2) := rfl
  rw [h1, ← List.map_map, List.enum_map_snd]

theorem collect_rows_eq_range (roots : List DRec) (expanded : List Nat)
    (base : Strategy) :
    (collect_visible_nodes_with_strategy roots expanded base).map (fun v => v.row_index)
      = List.range (collect_visible_nodes_with_strategy roots expanded base).length := by
  unfold collect_visible_nodes_with_strategy
  rw [List.map_map, List.length_map]
  have h1 : ((fun v : FilteredVisibleNode => v.row_index) ∘ (fun p : Nat × VisibleNode =>
      ({ record_id := p.2.record.id, row_index := p.1, depth := p.2.depth,
         branch_context := p.2.branch_context, is_last_child := p.2.is_last_child }
        : FilteredVisibleNode)))
      = (fun p : Nat × VisibleNode => p.1) := rfl
  rw [h1]
  rw [show (fun p : Nat × VisibleNode => p.1) = Prod.fst from rfl]
  rw [List.enum_map_fst, List.enum_length]

/-! ## `takeWhile` boundary lemmas and binary-search correctness -/

theorem takeWhile_length_le (p : α → Bool) (l : List α) :
    (l.takeWhile p).length ≤ l.length := by
  induction l with
  | nil => exact le_refl 0
  | cons a t ih =>
    rw [List.takeWhile_cons]
    cases p a
    · simp
    · simpa using ih

theorem takeWhile_length_eq (p : α → Bool) :
    ∀ (l : List α) (k : Nat), k ≤ l.length →
      (∀ i (h : i < l.length), i < k → p (l.get ⟨i, h⟩) = true) →
      (∀ i (h : i < l.length), k ≤ i → p (l.get ⟨i, h⟩) = false) →
      (l.takeWhile p).length = k := by
  intro l
  induction l with
  | nil =>
    intro k hk _ _
    simp only [List.length_nil, Nat.le_zero] at hk
    rw [hk]
    rfl
  | cons a t ih =>
    intro k hk h1 h2
    cases k with
    | zero =>
      have ha := h2 0 (by simp) (by omega)
      rw [List.takeWhile_cons, show p a = false from ha, if_neg (by simp)]
      rfl
    | succ k =>
      have ha := h1 0 (by simp) (by omega)
      rw [List.takeWhile_cons, show p a = true from ha, if_pos rfl]
      rw [List.length_cons]
      congr 1
      refine ih k (by simpa using hk) ?_ ?_
      · intro i h hik
        exact h1 (i + 1) (by simpa using h) (by omega)
      · intro i h hki
        exact h2 (i + 1) (by simpa using h) (by omega)

theorem takeWhile_prefix_true (p : α → Bool) :
    ∀ (l : List α) (i : Nat) (h : i < l.length),
      i < (l.takeWhile p).length → p (l.get ⟨i, h⟩) = true := by
  intro l
  induction l with
  | nil => intro i h; cases h
  | cons a t ih =>
    intro i h hi
    rw [List.takeWhile_cons] at hi
    cases hp : p a
    · rw [hp] at hi
      cases hi
    · rw [hp] at hi
      cases i with
      | zero => exact hp
      | succ i => exact ih i (by simpa using h) (by simpa using hi)

theorem takeWhile_stop_false (p : α → Bool) :
    ∀ (l : List α) (c : α), l.get? (l.takeWhile p).length = some c → p c = false := by
  intro l
  induction l with
  | nil => intro c hc; cases hc
  | cons a t ih =>
    intro c hc
    by_cases hp : p a = true
    · have hrw : ((a :: t).takeWhile p) = a :: t.takeWhile p := by
        rw [List.takeWhile_cons, hp, if_pos rfl]
      rw [hrw, List.length_cons] at hc
      exact ih c hc
    · have hp' : p a = false := by
        cases hpa : p a
        · rfl
        · exact absurd hpa hp
      have hrw : ((a :: t).takeWhile p) = [] := by
        rw [List.takeWhile_cons, hp', if_neg (by simp)]
      rw [hrw] at hc
      have : a = c := by
        injection hc
      rw [← this]
      exact hp'

/-- Correctness of the half-interval search shared by `bsLow` and `bsHigh`:
if the predicate is downward-closed along the (sorted) child list and the
current interval brackets the boundary, the search returns the length of
the true-prefix. -/
theorem binsearch_eq_takeWhile (children : List DRec) (q : DRec → Prop)
    [DecidablePred q] (bs : Nat → Nat → Nat)
    (hbs : ∀ l r, bs l r = if _ : l < r then
        (let mid := l + (r - l) / 2
         match children.get? mid with
         | some c => if q c then bs (mid + 1) r else bs l mid
         | none => l)
      else l)
    (hmono : ∀ i j (hi : i < children.length) (hj : j < children.length), i ≤ j →
        q (children.get ⟨j, hj⟩) → q (children.get ⟨i, hi⟩)) :
    ∀ (d l r : Nat), r - l ≤ d → l ≤ r → r ≤ children.length →
      (∀ i (h : i < children.length), i < l → q (children.get ⟨i, h⟩)) →
      (∀ i (h : i < children.length), r ≤ i → ¬ q (children.get ⟨i, h⟩)) →
      bs l r = (children.takeWhile (fun c => decide (q c))).length := by
  intro d
  induction d with
  | zero =>
    intro l r hd hlr hrn h1 h2
    rw [hbs, dif_neg (by omega)]
    refine (takeWhile_length_eq _ children l (by omega) ?_ ?_).symm
    · intro i h hil
      exact decide_eq_true (h1 i h hil)
    · intro i h hli
      exact decide_eq_false (h2 i h (by omega))
  | succ d ihd =>
    intro l r hd hlr hrn h1 h2
    by_cases hlt : l < r
    · rw [hbs, dif_pos hlt]
      have hmid_lt : l + (r - l) / 2 < r := by
        have := Nat.div_lt_self (show 0 < r - l by omega) (show 1 < 2 by omega)
        omega
      have hmidn : l + (r - l) / 2 < children.length := by omega
      have hget : children.get? (l + (r - l) / 2)
          = some (children.get ⟨l + (r - l) / 2, hmidn⟩) := List.get?_eq_get hmidn
      show (match children.get? (l + (r - l) / 2) with
        | some c => if q c then bs (l + (r - l) / 2 + 1) r else bs l (l + (r - l) / 2)
        | none => l) = _
      rw [hget]
      show (if q (children.get ⟨l + (r - l) / 2, hmidn⟩) then
          bs (l + (r - l) / 2 + 1) r else bs l (l + (r - l) / 2)) = _
      by_cases hq : q (children.get ⟨l + (r - l) / 2, hmidn⟩)
      · rw [if_pos hq]
        refine ihd (l + (r - l) / 2 + 1) r (by omega) (by omega) hrn ?_ h2
        intro i h hi
        exact hmono i _ h hmidn (by omega) hq
      · rw [if_neg hq]
        refine ihd l (l + (r - l) / 2) (by omega) (by omega) (by omega) h1 ?_
        intro i h hi
        intro hqi
        exact hq (hmono _ i hmidn h hi hqi)
    · rw [hbs, dif_neg hlt]
      refine (takeWhile_length_eq _ children l (by omega) ?_ ?_).symm
      · intro i h hil
        exact decide_eq_true (h1 i h hil)
      · intro i h hli
        exact decide_eq_false (h2 i h (by omega))

theorem bsLow_eq_lsLow (children : List DRec) (s : Int)
    (hsort : children.Pairwise (fun a b => a.clk ≤ b.clk)) :
    bsLow children s 0 children.length = lsLow children s := by
  refine binsearch_eq_takeWhile children (fun c => c.clk < s) (bsLow children s)
    (fun l r => by rw [bsLow]) ?_ children.length 0 children.length (by omega)
    (by omega) (le_refl _) ?_ ?_
  · intro i j hi hj hij hqj
    rcases Nat.eq_or_lt_of_le hij with heq | hlt
    · subst heq
      exact hqj
    · have := List.pairwise_iff_get.mp hsort ⟨i, hi⟩ ⟨j, hj⟩ hlt
      exact lt_of_le_of_lt this hqj
  · intro i h hi
    omega
  · intro i h hi
    omega

theorem bsHigh_eq_lsHigh (children : List DRec) (e : Int)
    (hsort : children.Pairwise (fun a b => a.clk ≤ b.clk)) :
    bsHigh children e 0 children.length = lsHigh children e := by
  refine binsearch_eq_takeWhile children (fun c => c.clk ≤ e) (bsHigh children e)
    (fun l r => by rw [bsHigh]) ?_ children.length 0 children.length (by omega)
    (by omega) (le_refl _) ?_ ?_
  · intro i j hi hj hij hqj
    rcases Nat.eq_or_lt_of_le hij with heq | hlt
    · subst heq
      exact hqj
    · have := List.pairwise_iff_get.mp hsort ⟨i, hi⟩ ⟨j, hj⟩ hlt
      exact le_trans this hqj
  · intro i h hi
    omega
  · intro i h hi
    omega

theorem subtree_depth_leaf (r : DRec) (h : r.children = []) : r.subtree_depth = 0 := by
  cases r with
  | mk i c d du cs =>
    have hcs : cs = [] := h
    subst hcs
    rw [DRec.subtree_depth]
    rfl

/-- On a parent whose children are leaves sorted by clock, the window hint
is determined by the two linear scans. -/
theorem viewportHint_sorted_leaves (s e : Int) (parent : DRec)
    (hleaves : ∀ c ∈ parent.children, c.children = [])
    (hsort : parent.children.Pairwise (fun a b => a.clk ≤ b.clk)) :
    viewportHint s e parent
      = if parent.children.length = 0 then none
        else
          (let f := lsLow parent.children s
           let l := lsHigh parent.children e
           let last := if l = 0 then 0 else l - 1
           if f ≤ last ∧ last < parent.children.length then some (f, last + 1)
           else none) := by
  unfold viewportHint
  by_cases hn : parent.num_children = 0
  · rw [if_pos hn, if_pos (show parent.children.length = 0 from hn)]
  · rw [if_neg hn, if_neg (show ¬ parent.children.length = 0 from hn)]
    have hne : parent.children ≠ [] := by
      intro hc
      exact hn (by rw [DRec.num_children, hc]; rfl)
    obtain ⟨c0, cs, hch⟩ : ∃ c0 cs, parent.children = c0 :: cs := by
      cases hc : parent.children with
      | nil => exact absurd hc hne
      | cons a t => exact ⟨a, t, rfl⟩
    have hc0 : parent.child_at 0 = some c0 := by
      rw [DRec.child_at, hch]
      rfl
    rw [hc0]
    have hd0 : c0.subtree_depth = 0 :=
      subtree_depth_leaf c0 (hleaves c0 (by rw [hch]; exact List.mem_cons_self c0 cs))
    show (if c0.subtree_depth ≠ 0 then none
      else
        let first_idx := bsLow parent.children s 0 parent.num_children
        let left := bsHigh parent.children e 0 parent.num_children
        let last_idx := if left = 0 then 0 else left - 1
        if first_idx ≤ last_idx ∧ last_idx < parent.num_children then
          some (first_idx, last_idx + 1)
        else none) = _
    rw [if_neg (show ¬ c0.subtree_depth ≠ 0 by rw [hd0]; simp)]
    simp only [DRec.num_children]
    rw [bsLow_eq_lsLow parent.children s hsort,
      bsHigh_eq_lsHigh parent.children e hsort]

end Jets

namespace Jets

/-! ## Claim theorems (cache) -/

/-- C7: `invalidate_filtered_cache` sets only `filtered_viewport_range` and
`filtered_node_count` to `None` and leaves the six other fields unchanged;
`invalidate` clears all memoized quantities and increments `expansion_seq`
by exactly one, and `expansion_seq` is bumped only on full invalidation
(partial invalidation leaves it unchanged). -/
theorem tree_cache_invalidation_contract (c : TreeCache) :
    (c.invalidate_filtered_cache.filtered_viewport_range = none ∧
     c.invalidate_filtered_cache.filtered_node_count = none ∧
     c.invalidate_filtered_cache.subtree_sizes = c.subtree_sizes ∧
     c.invalidate_filtered_cache.all_children_collapsed = c.all_children_collapsed ∧
     c.invalidate_filtered_cache.total_visible_nodes = c.total_visible_nodes ∧
     c.invalidate_filtered_cache.max_visible_depth = c.max_visible_depth ∧
     c.invalidate_filtered_cache.sorted_children = c.sorted_children ∧
     c.invalidate_filtered_cache.expansion_seq = c.expansion_seq) ∧
    (c.invalidate.subtree_sizes = [] ∧
     c.invalidate.all_children_collapsed = [] ∧
     c.invalidate.total_visible_nodes = none ∧
     c.invalidate.max_visible_depth = none ∧
     c.invalidate.sorted_children = [] ∧
     c.invalidate.filtered_viewport_range = none ∧
     c.invalidate.filtered_node_count = none ∧
     c.invalidate.expansion_seq = c.expansion_seq + 1) := by
  constructor
  · exact ⟨rfl, rfl, rfl, rfl, rfl, rfl, rfl, rfl⟩
  · exact ⟨rfl, rfl, rfl, rfl, rfl, rfl, rfl, rfl⟩

/-- C8: for every parent, `sort_child_indices_for_parent` with ascending
description key orders the child positions by description (with children
described `b`, `a`, `c` the order matches `a`, `b`, `c`, i.e. positions
`[1, 0, 2]`); toggling the direction to descending reverses the order when
the description keys are distinct; and under an ascending duration sort
every child lacking a duration orders before every child that has one. -/
theorem sort_child_indices_contract (parent : DRec) :
    (((sort_child_indices_for_parent parent ⟨SortKey.description, SortDir.asc⟩).filterMap
        parent.child_at).map DRec.description).Pairwise (· ≤ ·)
    ∧ (parent.children.Pairwise (fun c d => c.description ≠ d.description) →
        sort_child_indices_for_parent parent ⟨SortKey.description, SortDir.desc⟩
          = (sort_child_indices_for_parent parent ⟨SortKey.description, SortDir.asc⟩).reverse)
    ∧ (sort_child_indices_for_parent parent ⟨SortKey.duration, SortDir.asc⟩).Pairwise
        (fun i j => ∀ ci ∈ parent.child_at i, ∀ cj ∈ parent.child_at j,
          cj.duration = none → ci.duration = none)
    ∧ sort_child_indices_for_parent exParent ⟨SortKey.description, SortDir.asc⟩ = [1, 0, 2]
    ∧ sort_child_indices_for_parent exParent ⟨SortKey.description, SortDir.desc⟩ = [2, 0, 1] := by
  refine ⟨?_, ?_, ?_, by decide, by decide⟩
  · rw [sort_child_indices_asc_eq, List.filterMap_map, List.pairwise_map,
      List.pairwise_filterMap]
    refine List.Pairwise.imp_of_mem ?_
      (sortStable_pairwise pairKey (childSortItems parent ⟨SortKey.description, SortDir.asc⟩))
    intro p q hp hq hlt x hx y hy
    rcases childSortItems_mem ((sortStable_perm _ _).subset hp) with ⟨cp, hcp, hkp⟩
    rcases childSortItems_mem ((sortStable_perm _ _).subset hq) with ⟨cq, hcq, hkq⟩
    rw [Option.mem_def, Function.comp_apply, hcp] at hx
    rw [Option.mem_def, Function.comp_apply, hcq] at hy
    cases hx
    cases hy
    refine le_of_not_lt (fun hgt => hlt ?_)
    show q.2.toL < p.2.toL
    rw [hkp, hkq]
    exact (descrKey_toL_lt _ _).mpr hgt
  · intro hd
    rw [sort_child_indices_desc_eq, sort_child_indices_asc_eq, ← List.map_reverse]
    have hitems : childSortItems parent ⟨SortKey.description, SortDir.desc⟩
        = childSortItems parent ⟨SortKey.description, SortDir.asc⟩ := rfl
    rw [hitems]
    have hdist : (childSortItems parent ⟨SortKey.description, SortDir.asc⟩).Pairwise
        (fun p q => pairKey p ≠ pairKey q) := by
      unfold childSortItems
      rw [List.pairwise_filterMap]
      refine List.Pairwise.imp_of_mem ?_ (List.pairwise_lt_range _)
      intro i j _ _ hij p hp q hq heq
      rcases Option.map_eq_some'.mp hp with ⟨ci, hci, rfl⟩
      rcases Option.map_eq_some'.mp hq with ⟨cj, hcj, rfl⟩
      have hci' : parent.children.get? i = some ci := hci
      have hcj' : parent.children.get? j = some cj := hcj
      obtain ⟨hih, hgi⟩ := List.get?_eq_some.mp hci'
      obtain ⟨hjh, hgj⟩ := List.get?_eq_some.mp hcj'
      have hdescr : ci.description = cj.description := descrKey_toL_inj heq
      have hne := List.pairwise_iff_get.mp hd ⟨i, hih⟩ ⟨j, hjh⟩ hij
      rw [hgi, hgj] at hne
      exact hne hdescr
    exact congrArg (fun l => l.map (fun p : Nat × ChildKey => p.1))
      (sortStable_desc_eq_reverse pairKey hdist)
  · rw [sort_child_indices_asc_eq, List.pairwise_map]
    refine List.Pairwise.imp_of_mem ?_
      (sortStable_pairwise pairKey (childSortItems parent ⟨SortKey.duration, SortDir.asc⟩))
    intro p q hp hq hlt ci hci cj hcj hcj0
    rcases childSortItems_mem ((sortStable_perm _ _).subset hp) with ⟨cp, hcp, hkp⟩
    rcases childSortItems_mem ((sortStable_perm _ _).subset hq) with ⟨cq, hcq, hkq⟩
    rw [Option.mem_def, hcp] at hci
    rw [Option.mem_def, hcq] at hcj
    cases hci
    cases hcj
    by_contra hne
    rcases Option.ne_none_iff_exists'.mp hne with ⟨x, hx⟩
    refine hlt ?_
    show q.2.toL < p.2.toL
    rw [hkp, hkq]
    show (ChildKey.mk none none cj.duration).toL < (ChildKey.mk none none ci.duration).toL
    rw [hcj0, hx]
    exact durKey_toL_lt_none x

/-- Witness for C8 at a concrete parent: descending description sort is the
reverse of the ascending one when descriptions are distinct. -/
theorem sort_child_indices_contract_witness :
    sort_child_indices_for_parent exParent ⟨SortKey.description, SortDir.desc⟩
      = (sort_child_indices_for_parent exParent ⟨SortKey.description, SortDir.asc⟩).reverse :=
  (sort_child_indices_contract exParent).2.1 (by decide)

/-- C10 (amended): both extent computations return the fixed default
`(0, 1000)` on an empty record collection; on a non-empty collection whose
record clocks and end values lie in the `i64` range and whose minimum clock
is not the `i64::MAX` sentinel, the result is (minimum `clk`, maximum of
`end_clk`-or-`clk`); and the metadata extent of a parsed trace is exactly
`calculate_trace_extent` of its arena. -/
theorem trace_extent_contract :
    (calculate_trace_extent [] = (0, 1000)
      ∧ calculate_virtual_trace_extent [] = (0, 1000))
    ∧ (∀ l : List JetsTraceRecord, l ≠ [] → (∃ r0 ∈ l, r0.clk < i64Max) →
        (∀ r ∈ l, i64Min ≤ endOrClk r) →
        ∃ rm ∈ l, ∃ rM ∈ l,
          calculate_trace_extent l = (rm.clk, endOrClk rM)
          ∧ (∀ r ∈ l, rm.clk ≤ r.clk) ∧ (∀ r ∈ l, endOrClk r ≤ endOrClk rM))
    ∧ (∀ l : List VirtualTraceRecord, l ≠ [] → (∃ r0 ∈ l, r0.clk < i64Max) →
        (∀ r ∈ l, i64Min ≤ vEndOrClk r) →
        ∃ rm ∈ l, ∃ rM ∈ l,
          calculate_virtual_trace_extent l = (rm.clk, vEndOrClk rM)
          ∧ (∀ r ∈ l, rm.clk ≤ r.clk) ∧ (∀ r ∈ l, vEndOrClk r ≤ vEndOrClk rM))
    ∧ (∀ (ls : List RawLine) (td : JetsTraceData), parse_trace ls = .ok td →
        td.metadata.trace_extent = calculate_trace_extent td.all_records) := by
  refine ⟨⟨rfl, rfl⟩, ?_, ?_, ?_⟩
  · intro l hne hex hlow
    have hbody : (fun (p : Int × Int) (record : JetsTraceRecord) =>
        (min p.1 record.clk,
         match record.end_clk with
         | some e => max p.2 e
         | none => max p.2 record.clk))
        = fun p r => (min p.1 r.clk, max p.2 (endOrClk r)) := by
      funext p r
      cases h : r.end_clk <;> simp [endOrClk, h]
    have hcalc : calculate_trace_extent l
        = (let mm := l.foldl (fun p r => (min p.1 r.clk, max p.2 (endOrClk r)))
            (i64Max, i64Min)
           if mm.1 = i64Max then ((0 : Int), (1000 : Int)) else mm) := by
      unfold calculate_trace_extent
      rw [if_neg (by simp [hne]), hbody]
    rcases extent_spec_core JetsTraceRecord.clk endOrClk _ rfl l hne hex hlow with
      ⟨rm, hrm, rM, hrM, heq, h1, h2⟩
    exact ⟨rm, hrm, rM, hrM, by rw [hcalc]; exact heq, h1, h2⟩
  · intro l hne hex hlow
    have hbody : (fun (p : Int × Int) (record : VirtualTraceRecord) =>
        (min p.1 record.clk,
         match record.end_clk with
         | some e => max p.2 e
         | none => max p.2 record.clk))
        = fun p r => (min p.1 r.clk, max p.2 (vEndOrClk r)) := by
      funext p r
      cases h : r.end_clk <;> simp [vEndOrClk, h]
    have hcalc : calculate_virtual_trace_extent l
        = (let mm := l.foldl (fun p r => (min p.1 r.clk, max p.2 (vEndOrClk r)))
            (i64Max, i64Min)
           if mm.1 = i64Max then ((0 : Int), (1000 : Int)) else mm) := by
      unfold calculate_virtual_trace_extent
      rw [if_neg (by simp [hne]), hbody]
    rcases extent_spec_core VirtualTraceRecord.clk vEndOrClk _ rfl l hne hex hlow with
      ⟨rm, hrm, rM, hrM, heq, h1, h2⟩
    exact ⟨rm, hrm, rM, hrM, by rw [hcalc]; exact heq, h1, h2⟩
  · intro ls td h
    unfold parse_trace at h
    split at h
    · exact Except.noConfusion h
    · split at h
      · exact Except.noConfusion h
      · injection h with h2
        rw [← h2]
        rfl

/-- Witness for C10's non-empty characterization at a one-record arena. -/
theorem trace_extent_contract_witness :
    ∃ rm ∈ [exExtentRec], ∃ rM ∈ [exExtentRec],
      calculate_trace_extent [exExtentRec] = (rm.clk, endOrClk rM)
      ∧ (∀ r ∈ [exExtentRec], rm.clk ≤ r.clk)
      ∧ (∀ r ∈ [exExtentRec], endOrClk r ≤ endOrClk rM) :=
  trace_extent_contract.2.1 [exExtentRec] (by decide) (by decide) (by decide)

/-- C10 counterexample: a parsed, non-empty trace whose only record starts
at `i64::MAX` gets the default extent `(0, 1000)` instead of the
record-derived `(i64::MAX, i64::MAX)`. -/
theorem trace_extent_counterexample :
    (parse_trace exMaxClkLines).toOption.map (fun td => td.metadata.trace_extent)
        = some ((0 : Int), (1000 : Int))
    ∧ (parse_trace exMaxClkLines).toOption.map
        (fun td => td.all_records.map (fun r => r.clk)) = some [i64Max]
    ∧ ((0 : Int), (1000 : Int)) ≠ (i64Max, i64Max) := by
  exact ⟨by decide, by decide, by decide⟩

/-- C6 (amended): on a parent whose children are all leaves sorted by
clock, with `start ≤ end`: when some child's clock lies in `[start, end]`,
`child_window_hint` returns exactly the linear-scan window — from the first
child with `clk ≥ start` (exclusive upper end one past the last child with
`clk ≤ end`); when no child is in the window but some child has
`clk ≤ end`, it returns `None`; when all children start after `end`, it
returns the spurious but harmless window `Some (0, 1)`, whose sole
candidate child every leaf filter rejects; and with no children it returns
`None`. -/
theorem child_window_hint_contract (s e : Int) (parent : DRec)
    (hse : s ≤ e)
    (hleaves : ∀ c ∈ parent.children, c.children = [])
    (hsort : parent.children.Pairwise (fun a b => a.clk ≤ b.clk)) :
    ((∃ c ∈ parent.children, s ≤ c.clk ∧ c.clk ≤ e) →
      viewportHint s e parent
        = some (lsLow parent.children s, lsHigh parent.children e))
    ∧ ((∀ c ∈ parent.children, ¬ (s ≤ c.clk ∧ c.clk ≤ e)) →
        (∃ c ∈ parent.children, c.clk ≤ e) →
        viewportHint s e parent = none)
    ∧ ((∀ c ∈ parent.children, e < c.clk) → parent.children ≠ [] →
        viewportHint s e parent = some (0, 1)
        ∧ ∀ c ∈ parent.children,
            (ViewportFilterStrategy s e).include_leaf c 0 = false)
    ∧ (parent.children = [] → viewportHint s e parent = none) := by
  have hchar := viewportHint_sorted_leaves s e parent hleaves hsort
  have hf_le_n : lsLow parent.children s ≤ parent.children.length :=
    takeWhile_length_le (fun c : DRec => decide (c.clk < s)) parent.children
  have hl_le_n : lsHigh parent.children e ≤ parent.children.length :=
    takeWhile_length_le (fun c : DRec => decide (c.clk ≤ e)) parent.children
  refine ⟨?_, ?_, ?_, ?_⟩
  · rintro ⟨c, hc, hcs, hce⟩
    obtain ⟨⟨i, hi⟩, hgi⟩ := List.mem_iff_get.mp hc
    have hfi : lsLow parent.children s ≤ i := by
      by_contra h
      push_neg at h
      have h2 := takeWhile_prefix_true _ parent.children i hi h
      rw [hgi] at h2
      have h3 := of_decide_eq_true h2
      omega
    have hil : i < lsHigh parent.children e := by
      by_contra h
      push_neg at h
      have hln : lsHigh parent.children e < parent.children.length := by omega
      have hstop := takeWhile_stop_false (fun c : DRec => decide (c.clk ≤ e))
        parent.children (parent.children.get ⟨lsHigh parent.children e, hln⟩)
        (List.get?_eq_get hln)
      have h1 : ¬ (parent.children.get ⟨lsHigh parent.children e, hln⟩).clk ≤ e :=
        of_decide_eq_false hstop
      rcases Nat.eq_or_lt_of_le h with heq | hlt
      · rw [← hgi] at hce
        have : parent.children.get ⟨lsHigh parent.children e, hln⟩
            = parent.children.get ⟨i, hi⟩ := by
          congr 1
          exact Fin.ext heq
        rw [this] at h1
        exact h1 hce
      · have hmono := List.pairwise_iff_get.mp hsort
          ⟨lsHigh parent.children e, hln⟩ ⟨i, hi⟩ hlt
        rw [hgi] at hmono
        exact h1 (le_trans hmono hce)
    rw [hchar, if_neg (by omega)]
    show (if lsLow parent.children s
          ≤ (if lsHigh parent.children e = 0 then 0 else lsHigh parent.children e - 1)
          ∧ (if lsHigh parent.children e = 0 then 0 else lsHigh parent.children e - 1)
            < parent.children.length then
        some (lsLow parent.children s,
          (if lsHigh parent.children e = 0 then 0 else lsHigh parent.children e - 1) + 1)
      else none) = _
    have hl0 : ¬ lsHigh parent.children e = 0 := by omega
    simp only [if_neg hl0]
    rw [if_pos ⟨by omega, by omega⟩, Nat.sub_add_cancel (by omega)]
  · rintro hno ⟨c, hc, hce⟩
    obtain ⟨⟨i, hi⟩, hgi⟩ := List.mem_iff_get.mp hc
    have hl_pos : 0 < lsHigh parent.children e := by
      by_contra h
      push_neg at h
      have hl0 : lsHigh parent.children e = 0 := by omega
      have h0n : 0 < parent.children.length := by omega
      have hl0' :
          (List.takeWhile (fun c : DRec => decide (c.clk ≤ e)) parent.children).length
            = 0 := hl0
      have hstop := takeWhile_stop_false (fun c : DRec => decide (c.clk ≤ e))
        parent.children (parent.children.get ⟨0, h0n⟩)
        (by rw [hl0']
            exact List.get?_eq_get h0n)
      have h1 : ¬ (parent.children.get ⟨0, h0n⟩).clk ≤ e := of_decide_eq_false hstop
      rcases Nat.eq_zero_or_pos i with hi0 | hipos
      · subst hi0
        rw [hgi] at h1
        exact h1 hce
      · have hmono := List.pairwise_iff_get.mp hsort ⟨0, h0n⟩ ⟨i, hi⟩ hipos
        rw [hgi] at hmono
        exact h1 (le_trans hmono hce)
    have hl1n : lsHigh parent.children e - 1 < parent.children.length := by omega
    have hpref := takeWhile_prefix_true (fun c : DRec => decide (c.clk ≤ e))
      parent.children (lsHigh parent.children e - 1) hl1n (by
        show _ < lsHigh parent.children e
        omega)
    have hc'e : (parent.children.get ⟨lsHigh parent.children e - 1, hl1n⟩).clk ≤ e :=
      of_decide_eq_true hpref
    have hc'mem := List.get_mem parent.children _ hl1n
    have hc's : (parent.children.get ⟨lsHigh parent.children e - 1, hl1n⟩).clk < s := by
      have := hno _ hc'mem
      by_contra h
      push_neg at h
      exact this ⟨h, hc'e⟩
    have hfgt : lsHigh parent.children e - 1 < lsLow parent.children s := by
      by_contra h
      push_neg at h
      have hfn : lsLow parent.children s < parent.children.length := by omega
      have hstop := takeWhile_stop_false (fun c : DRec => decide (c.clk < s))
        parent.children (parent.children.get ⟨lsLow parent.children s, hfn⟩)
        (List.get?_eq_get hfn)
      have h1 : ¬ (parent.children.get ⟨lsLow parent.children s, hfn⟩).clk < s :=
        of_decide_eq_false hstop
      rcases Nat.eq_or_lt_of_le h with heq | hlt
      · have : parent.children.get ⟨lsLow parent.children s, hfn⟩
            = parent.children.get ⟨lsHigh parent.children e - 1, hl1n⟩ := by
          congr 1
          exact Fin.ext heq
        rw [this] at h1
        exact h1 hc's
      · have hmono := List.pairwise_iff_get.mp hsort
          ⟨lsLow parent.children s, hfn⟩ ⟨lsHigh parent.children e - 1, hl1n⟩ hlt
        exact h1 (lt_of_le_of_lt hmono hc's)
    rw [hchar, if_neg (by omega)]
    show (if lsLow parent.children s
          ≤ (if lsHigh parent.children e = 0 then 0 else lsHigh parent.children e - 1)
          ∧ (if lsHigh parent.children e = 0 then 0 else lsHigh parent.children e - 1)
            < parent.children.length then
        some (lsLow parent.children s,
          (if lsHigh parent.children e = 0 then 0 else lsHigh parent.children e - 1) + 1)
      else none) = _
    have hl0 : ¬ lsHigh parent.children e = 0 := by omega
    simp only [if_neg hl0]
    rw [if_neg (by omega)]
  · intro hgt hne
    have hn : 0 < parent.children.length := List.length_pos.mpr hne
    have hf0 : lsLow parent.children s = 0 := by
      refine takeWhile_length_eq _ parent.children 0 (by omega) ?_ ?_
      · intro i h hik
        omega
      · intro i h _
        refine decide_eq_false ?_
        have := hgt _ (List.get_mem parent.children i h)
        omega
    have hl0 : lsHigh parent.children e = 0 := by
      refine takeWhile_length_eq _ parent.children 0 (by omega) ?_ ?_
      · intro i h hik
        omega
      · intro i h _
        refine decide_eq_false ?_
        have := hgt _ (List.get_mem parent.children i h)
        omega
    constructor
    · rw [hchar, if_neg (by omega)]
      show (if lsLow parent.children s
            ≤ (if lsHigh parent.children e = 0 then 0 else lsHigh parent.children e - 1)
            ∧ (if lsHigh parent.children e = 0 then 0 else lsHigh parent.children e - 1)
              < parent.children.length then
          some (lsLow parent.children s,
            (if lsHigh parent.children e = 0 then 0 else lsHigh parent.children e - 1) + 1)
        else none) = _
      simp only [hf0, hl0, eq_self_iff_true, if_true]
      rw [if_pos ⟨le_refl 0, by omega⟩]
    · intro c hc
      show (decide (s ≤ c.clk) && decide (c.clk ≤ e)) = false
      rw [decide_eq_false (not_le.mpr (hgt c hc)), Bool.and_false]
  · intro h
    rw [hchar, if_pos (by rw [h]; rfl)]

/-- Witness for C6's in-window case on the five-leaf example parent. -/
theorem child_window_hint_contract_witness :
    viewportHint 100 200 exViewportParent
      = some (lsLow exViewportParent.children 100, lsHigh exViewportParent.children 200) :=
  (child_window_hint_contract 100 200 exViewportParent (by decide)
    (by intro c hc
        fin_cases hc <;> rfl)
    (by decide)).1 (by decide)

/-- C6 counterexample: with a single leaf child at clock 250 and window
`[100, 200]`, no child's clock lies in the window, yet `child_window_hint`
returns `Some (0, 1)` rather than the `None` a linear scan would dictate. -/
theorem child_window_hint_counterexample :
    viewportHint 100 200 (DRec.mk 20 0 "" none [exLeaf 21 250]) = some (0, 1)
    ∧ (∀ c ∈ (DRec.mk 20 0 "" none [exLeaf 21 250]).children,
        ¬ (100 ≤ c.clk ∧ c.clk ≤ 200))
    ∧ some ((0 : Nat), (1 : Nat)) ≠ none := by
  refine ⟨?_, by decide, by decide⟩
  rw [viewportHint_sorted_leaves 100 200 _
    (by intro c hc
        fin_cases hc
        rfl)
    (by decide)]
  decide

/-- C4: under the viewport filter with inclusive window `[start, end]`, the
records the traversal emits are exactly the records it visits filtered by
`viewportKeep`: every visited node with children is kept as a structural
anchor, a visited leaf is kept iff `start ≤ clk ≤ end`; concretely, for
leaves at clocks 50/100/150/200/250 under an expanded parent, filtering to
`[100, 200]` yields exactly the parent (id 10) plus the leaves at 100, 150
and 200 (ids 12, 13, 14). -/
theorem viewport_filter_contract (s e : Int) (expanded : List Nat)
    (roots : List DRec) :
    ((run (ExpansionAwareStrategy expanded (ViewportFilterStrategy s e))
        (rootFrames roots)).map (fun v => v.record)
      = (((rootFrames roots).map
            (visitedF (ExpansionAwareStrategy expanded
              (ViewportFilterStrategy s e)))).join).filter (viewportKeep s e))
    ∧ (collect_visible_nodes_with_strategy [exViewportParent] [10]
        (ViewportFilterStrategy 100 200)).map (fun v => v.record_id)
        = [10, 12, 13, 14] := by
  constructor
  · rw [run_eq_join_visitF, map_join_eq, filter_join_eq, List.map_map, List.map_map]
    congr 1
    refine List.map_congr_left ?_
    intro f hf
    exact visitF_viewport_filter s e expanded f (rootFrames_child_index roots f hf)
  · have hhint : (ExpansionAwareStrategy [10]
        (ViewportFilterStrategy 100 200)).child_window_hint
        (frameOf exViewportParent).record (frameOf exViewportParent).depth
        = some (1, 4) := by
      show viewportHint 100 200 exViewportParent = some (1, 4)
      rw [viewportHint_sorted_leaves 100 200 exViewportParent
        (by intro c hc; fin_cases hc <;> rfl) (by decide)]
      decide
    have hord : orderedIndices (ExpansionAwareStrategy [10]
          (ViewportFilterStrategy 100 200)) (frameOf exViewportParent).record
          (frameOf exViewportParent).depth
        = [1, 2, 3] := by
      unfold orderedIndices
      rw [hhint]
      decide
    have hpush : pushFrames (ExpansionAwareStrategy [10]
          (ViewportFilterStrategy 100 200)) (frameOf exViewportParent)
        = [exWinFrame 12 100 false, exWinFrame 13 150 false, exWinFrame 14 200 true] := by
      unfold pushFrames
      rw [if_pos ⟨by decide,
        (show (ExpansionAwareStrategy [10] (ViewportFilterStrategy 100 200)).descend_into
            (frameOf exViewportParent).record (frameOf exViewportParent).depth
          = true by decide)⟩]
      rw [hord]
      rfl
    rw [collect_map_rid]
    rw [show rootFrames [exViewportParent] = [frameOf exViewportParent] from rfl]
    rw [run_single]
    rw [visitF_parent _ (frameOf exViewportParent) (by decide) rfl]
    rw [hpush]
    rw [if_pos (show (ExpansionAwareStrategy [10]
        (ViewportFilterStrategy 100 200)).include_parent
        (frameOf exViewportParent).record (frameOf exViewportParent).depth = true from rfl)]
    rw [List.map_cons, List.map_cons, List.map_cons, List.map_nil]
    rw [visitF_leaf _ (exWinFrame 12 100 false) (by decide),
      visitF_leaf _ (exWinFrame 13 150 false) (by decide),
      visitF_leaf _ (exWinFrame 14 200 true) (by decide)]
    rw [if_pos (show (ExpansionAwareStrategy [10]
        (ViewportFilterStrategy 100 200)).include_leaf
        (exWinFrame 12 100 false).record (exWinFrame 12 100 false).depth = true from rfl)]
    rw [if_pos (show (ExpansionAwareStrategy [10]
        (ViewportFilterStrategy 100 200)).include_leaf
        (exWinFrame 13 150 false).record (exWinFrame 13 150 false).depth = true from rfl)]
    rw [if_pos (show (ExpansionAwareStrategy [10]
        (ViewportFilterStrategy 100 200)).include_leaf
        (exWinFrame 14 200 true).record (exWinFrame 14 200 true).depth = true from rfl)]
    rfl

/-- C5: under the viewport filter, a frame whose record starts after the
window's end bound is a pruning point: the traversal of its subtree visits
only the record itself (no descendant is ever visited, hence none emitted),
and the emitted output is exactly the record as a structural anchor when it
has children, and nothing when it is a leaf (a leaf past `end` fails the
window test). -/
theorem viewport_filter_pruning (s e : Int) (expanded : List Nat)
    (f : TraversalFrame) (hclk : e < f.record.clk) (hci : f.child_index = none) :
    visitedF (ExpansionAwareStrategy expanded (ViewportFilterStrategy s e)) f
      = [f.record]
    ∧ (visitF (ExpansionAwareStrategy expanded (ViewportFilterStrategy s e)) f).map
        (fun v => v.record)
      = if f.record.num_children > 0 then [f.record] else [] := by
  have hd : (ExpansionAwareStrategy expanded
      (ViewportFilterStrategy s e)).descend_into f.record f.depth = false := by
    show (decide (f.record.id ∈ expanded) && decide (f.record.clk ≤ e)) = false
    rw [decide_eq_false (not_le.mpr hclk), Bool.and_false]
  have hpushnil : pushFrames (ExpansionAwareStrategy expanded
      (ViewportFilterStrategy s e)) f = [] :=
    pushFrames_of_no_descend _ f hd
  constructor
  · rw [visitedF_first_visit _ f hci, hpushnil]
    rfl
  · by_cases hpar : f.record.num_children > 0
    · rw [if_pos hpar, visitF_parent _ f hpar hci, hpushnil]
      rw [if_pos (show (ExpansionAwareStrategy expanded
          (ViewportFilterStrategy s e)).include_parent f.record f.depth = true from rfl)]
      rfl
    · rw [if_neg hpar, visitF_leaf _ f hpar]
      have hil : (ExpansionAwareStrategy expanded
          (ViewportFilterStrategy s e)).include_leaf f.record f.depth = false := by
        show (decide (s ≤ f.record.clk) && decide (f.record.clk ≤ e)) = false
        rw [decide_eq_false (not_le.mpr hclk), Bool.and_false]
      rw [if_neg (by rw [hil]; exact Bool.false_ne_true)]
      rfl

/-- Witness for C5 at the example parent (clock 0) with window `[0, -1]`. -/
theorem viewport_filter_pruning_witness :
    visitedF (ExpansionAwareStrategy [10] (ViewportFilterStrategy 0 (-1)))
        (frameOf exViewportParent) = [exViewportParent]
    ∧ (visitF (ExpansionAwareStrategy [10] (ViewportFilterStrategy 0 (-1)))
        (frameOf exViewportParent)).map (fun v => v.record) = [exViewportParent] := by
  have h := viewport_filter_pruning 0 (-1) [10] (frameOf exViewportParent)
    (by decide) rfl
  refine ⟨h.1, ?_⟩
  rw [h.2, if_pos (by decide)]
  rfl

/-- C3 (amended): with only the root R in the expansion set, collecting
visible nodes with the unfiltered policy yields R followed by R's direct
children as collapsed anchors (not R alone: children of an expanded node
are always emitted); row indices are assigned 0..n-1 in emission
(pre-order) order; and on the depth-3 example, additionally expanding the
middle child reveals its children: ids/rows become
(0,0), (1,1), (2,2). -/
theorem unfiltered_expansion_contract (R : DRec)
    (h1 : ∀ c ∈ R.children, c.id ≠ R.id) :
    ((collect_visible_nodes_with_strategy [R] [R.id] UnfilteredStrategy).map
        (fun v => v.record_id) = R.id :: R.children.map DRec.id)
    ∧ ((collect_visible_nodes_with_strategy [R] [R.id] UnfilteredStrategy).map
        (fun v => v.row_index)
        = List.range (collect_visible_nodes_with_strategy [R] [R.id]
            UnfilteredStrategy).length)
    ∧ (collect_visible_nodes_with_strategy [exC3root] [0, 1] UnfilteredStrategy).map
        (fun v => (v.record_id, v.row_index)) = [(0, 0), (1, 1), (2, 2)] := by
  refine ⟨?_, collect_rows_eq_range [R] [R.id] UnfilteredStrategy, ?_⟩
  · rw [collect_map_rid]
    rw [show rootFrames [R] = [frameOf R] from rfl]
    rw [run_single]
    by_cases hpar : (frameOf R).record.num_children > 0
    · rw [visitF_parent _ (frameOf R) hpar rfl]
      rw [if_pos (show (ExpansionAwareStrategy [R.id] UnfilteredStrategy).include_parent
          (frameOf R).record (frameOf R).depth = true from rfl)]
      have hd : (ExpansionAwareStrategy [R.id] UnfilteredStrategy).descend_into
          (frameOf R).record (frameOf R).depth = true := by
        show (decide (R.id ∈ [R.id]) && true) = true
        simp
      have hnat := pushFrames_natural (ExpansionAwareStrategy [R.id] UnfilteredStrategy)
        (frameOf R) hd rfl hpar
      rw [List.map_append, map_join_eq, List.map_map]
      have hchild : ∀ g ∈ pushFrames (ExpansionAwareStrategy [R.id] UnfilteredStrategy)
          (frameOf R),
          (List.map (fun v : VisibleNode => v.record.id) ∘
            visitF (ExpansionAwareStrategy [R.id] UnfilteredStrategy)) g
            = [g.record.id] := by
        intro g hg
        have hmem : g.record ∈ R.children := by
          show g.record ∈ (frameOf R).record.children
          rw [← hnat]
          exact List.mem_map_of_mem (fun g => g.record) hg
        have hnd : (ExpansionAwareStrategy [R.id] UnfilteredStrategy).descend_into
            g.record g.depth = false := by
          show (decide (g.record.id ∈ [R.id]) && true) = false
          rw [Bool.and_true]
          exact decide_eq_false (by simpa using h1 g.record hmem)
        have hcig := child_index_pushFrames
          (ExpansionAwareStrategy [R.id] UnfilteredStrategy) (frameOf R) g hg
        have hrec := visitF_no_descend_record
          (ExpansionAwareStrategy [R.id] UnfilteredStrategy) g (Or.inl hnd) rfl rfl hcig
        show (visitF (ExpansionAwareStrategy [R.id] UnfilteredStrategy) g).map
            (fun v => v.record.id) = [g.record.id]
        have hmm : (visitF (ExpansionAwareStrategy [R.id] UnfilteredStrategy) g).map
            (fun v => v.record.id)
            = ((visitF (ExpansionAwareStrategy [R.id] UnfilteredStrategy) g).map
                (fun v => v.record)).map DRec.id := by
          rw [List.map_map]
          rfl
        rw [hmm, hrec]
        rfl
      rw [List.map_congr_left hchild]
      rw [join_map_singleton (pushFrames (ExpansionAwareStrategy [R.id]
        UnfilteredStrategy) (frameOf R)) (fun g => g.record.id)]
      have hids : (pushFrames (ExpansionAwareStrategy [R.id] UnfilteredStrategy)
          (frameOf R)).map (fun g => g.record.id) = R.children.map DRec.id := by
        have hmm : (pushFrames (ExpansionAwareStrategy [R.id] UnfilteredStrategy)
            (frameOf R)).map (fun g => g.record.id)
            = ((pushFrames (ExpansionAwareStrategy [R.id] UnfilteredStrategy)
                (frameOf R)).map (fun g => g.record)).map DRec.id := by
          rw [List.map_map]
          rfl
        rw [hmm, hnat]
        rfl
      rw [hids]
      rfl
    · rw [visitF_leaf _ (frameOf R) hpar]
      rw [if_pos (show (ExpansionAwareStrategy [R.id] UnfilteredStrategy).include_leaf
          (frameOf R).record (frameOf R).depth = true from rfl)]
      have hlen : R.children.length = 0 := by
        have h2 := hpar
        rw [show (frameOf R).record.num_children = R.children.length from rfl] at h2
        omega
      rw [List.length_eq_zero.mp hlen]
      rfl
  · have hp0 : pushFrames (ExpansionAwareStrategy [0, 1] UnfilteredStrategy)
        (frameOf exC3root) = [exC3frame1] := rfl
    have hp1 : pushFrames (ExpansionAwareStrategy [0, 1] UnfilteredStrategy)
        exC3frame1 = [exC3frame2] := rfl
    have hrun : run (ExpansionAwareStrategy [0, 1] UnfilteredStrategy)
        (rootFrames [exC3root])
        = [parentNodeOf (frameOf exC3root), parentNodeOf exC3frame1,
            leafNodeOf exC3frame2] := by
      rw [show rootFrames [exC3root] = [frameOf exC3root] from rfl, run_single]
      rw [visitF_parent _ (frameOf exC3root) (by decide) rfl, hp0]
      rw [List.map_cons, List.map_nil]
      rw [visitF_parent _ exC3frame1 (by decide) rfl, hp1]
      rw [List.map_cons, List.map_nil]
      rw [visitF_leaf _ exC3frame2 (by decide)]
      rw [if_pos (show (ExpansionAwareStrategy [0, 1] UnfilteredStrategy).include_parent
          (frameOf exC3root).record (frameOf exC3root).depth = true from rfl)]
      rw [if_pos (show (ExpansionAwareStrategy [0, 1] UnfilteredStrategy).include_parent
          exC3frame1.record exC3frame1.depth = true from rfl)]
      rw [if_pos (show (ExpansionAwareStrategy [0, 1] UnfilteredStrategy).include_leaf
          exC3frame2.record exC3frame2.depth = true from rfl)]
      rfl
    unfold collect_visible_nodes_with_strategy
    rw [hrun]
    rfl

/-- Witness for C3 on the depth-3 example tree with only the root
expanded. -/
theorem unfiltered_expansion_contract_witness :
    (collect_visible_nodes_with_strategy [exC3root] [exC3root.id]
        UnfilteredStrategy).map (fun v => v.record_id)
      = exC3root.id :: exC3root.children.map DRec.id :=
  (unfiltered_expansion_contract exC3root (by decide)).1

/-- C3 counterexample: on the depth-3 example with only the root (id 0)
expanded, the unfiltered collection emits the root AND its collapsed child
(id 1) — ids/rows (0,0), (1,1) — not the root alone as the spec's
sentence states. -/
theorem unfiltered_expansion_counterexample :
    (collect_visible_nodes_with_strategy [exC3root] [0] UnfilteredStrategy).map
        (fun v => (v.record_id, v.row_index)) = [(0, 0), (1, 1)]
    ∧ [((0 : Nat), (0 : Nat)), ((1 : Nat), (1 : Nat))] ≠ [((0 : Nat), (0 : Nat))] := by
  refine ⟨?_, by decide⟩
  have hp0 : pushFrames (ExpansionAwareStrategy [0] UnfilteredStrategy)
      (frameOf exC3root) = [exC3frame1] := rfl
  have hp1 : pushFrames (ExpansionAwareStrategy [0] UnfilteredStrategy)
      exC3frame1 = [] := rfl
  have hrun : run (ExpansionAwareStrategy [0] UnfilteredStrategy)
      (rootFrames [exC3root])
      = [parentNodeOf (frameOf exC3root), parentNodeOf exC3frame1] := by
    rw [show rootFrames [exC3root] = [frameOf exC3root] from rfl, run_single]
    rw [visitF_parent _ (frameOf exC3root) (by decide) rfl, hp0]
    rw [List.map_cons, List.map_nil]
    rw [visitF_parent _ exC3frame1 (by decide) rfl, hp1]
    rw [if_pos (show (ExpansionAwareStrategy [0] UnfilteredStrategy).include_parent
        (frameOf exC3root).record (frameOf exC3root).depth = true from rfl)]
    rw [if_pos (show (ExpansionAwareStrategy [0] UnfilteredStrategy).include_parent
        exC3frame1.record exC3frame1.depth = true from rfl)]
    rfl
  unfold collect_visible_nodes_with_strategy
  rw [hrun]
  rfl

/-! ## Parser lemmas: arena lookups and roots -/

theorem enumFrom_get? (l : List α) (n i : Nat) :
    (l.enumFrom n).get? i = (l.get? i).map (fun a => (n + i, a)) := by
  induction l generalizing n i with
  | nil => cases i <;> rfl
  | cons a t ih =>
    cases i with
    | zero => rfl
    | succ k =>
      show (t.enumFrom (n + 1)).get? k = (t.get? k).map (fun a => (n + (k + 1), a))
      rw [ih (n + 1) k]
      rw [show n + 1 + k = n + (k + 1) from by omega]

theorem enum_get? (l : List α) (i : Nat) :
    l.enum.get? i = (l.get? i).map (fun a => (i, a)) := by
  show (l.enumFrom 0).get? i = _
  rw [enumFrom_get? l 0 i]
  cases l.get? i <;> simp

theorem mem_enum_get? {l : List α} {p : Nat × α} (hp : p ∈ l.enum) :
    l.get? p.1 = some p.2 := by
  rcases List.mem_iff_get?.mp hp with ⟨i, hi⟩
  rw [enum_get? l i] at hi
  cases h : l.get? i with
  | none => rw [h] at hi; cases hi
  | some a =>
    rw [h] at hi
    injection hi with hpa
    rw [← hpa]
    exact h

theorem filterMap_eq_map_of_some (l : List α) (f : α → Option β) (g : α → β)
    (h : ∀ a ∈ l, f a = some (g a)) : l.filterMap f = l.map g := by
  induction l with
  | nil => rfl
  | cons a t ih =>
    rw [List.filterMap_cons, h a (List.mem_cons_self a t)]
    show g a :: t.filterMap f = g a :: t.map g
    rw [ih (fun x hx => h x (List.mem_cons_of_mem a hx))]

/-- The arena's roots are exactly the records whose `parent_id` is `None`:
a set but unresolvable parent id never makes a root. -/
theorem buildTrace_root_ids (h : JetsTraceHeader) (f : Option JetsTraceFooter)
    (recs : List JetsTraceRecord) :
    (buildTrace h f recs).root_ids
      = ((buildTrace h f recs).all_records.filter
          (fun r => r.parent_id.isNone)).map (fun r => r.id) := by
  unfold buildTrace JetsTraceData.root_ids
  dsimp only
  rw [List.filterMap_map]
  rw [filterMap_eq_map_of_some _ _
    (fun p => { p.2 with child_indices :=
      (sortStable (fun a b =>
        match (sortStable recCmpLt recs).get? a, (sortStable recCmpLt recs).get? b with
        | some ra, some rb => recCmpLt ra rb
        | _, _ => false)
        ((sortStable recCmpLt recs).enum.filterMap (fun q =>
          match q.2.parent_id with
          | some pid =>
            match ((sortStable recCmpLt recs).enum.map
                (fun p0 => (p0.2.id, p0.1))).lookup pid with
            | some pi => if pi = p.1 then some q.1 else none
            | none => none
          | none => none))) })
    ?_]
  · rw [List.filter_map, List.map_map, List.map_map]
    rfl
  · intro p hp
    show ((sortStable recCmpLt recs).enum.map _).get? p.1 = _
    rw [List.get?_map, enum_get? (sortStable recCmpLt recs) p.1,
      mem_enum_get? (List.mem_of_mem_filter hp)]
    rfl

/-- C1 (amended): for every successfully parsed trace, `root_ids()` returns
exactly the ids of the records whose `parent_id` is null, in arena order;
a record whose `parent_id` is set but resolves to no record is kept in the
arena but is an orphan, not a root. -/
theorem root_ids_contract (ls : List RawLine) (td : JetsTraceData)
    (h : parse_trace ls = .ok td) :
    td.root_ids
      = (td.all_records.filter (fun r => r.parent_id.isNone)).map (fun r => r.id) := by
  unfold parse_trace at h
  split at h
  · exact Except.noConfusion h
  · split at h
    · exact Except.noConfusion h
    · injection h with h2
      rw [← h2]
      exact buildTrace_root_ids _ _ _

/-- Witness for C1 on the header + two-record example. -/
theorem root_ids_contract_witness :
    ∃ td, parse_trace exC1Lines = Except.ok td
      ∧ td.root_ids
        = (td.all_records.filter (fun r => r.parent_id.isNone)).map (fun r => r.id) := by
  cases hp : parse_trace exC1Lines with
  | error e =>
    exfalso
    have h1 : (parse_trace exC1Lines).toOption.isSome = true := by decide
    rw [hp] at h1
    cases h1
  | ok td => exact ⟨td, rfl, root_ids_contract exC1Lines td hp⟩

/-- C1 counterexample: record 2's parent id 99 resolves to no record; 2 is
parsed into the arena but `root_ids()` returns only `[1]`, not `[1, 2]` as
the claim's unresolvable-parent clause demands. -/
theorem root_ids_counterexample :
    (parse_trace exC1Lines).toOption.map (fun td => td.root_ids) = some [1]
    ∧ (parse_trace exC1Lines).toOption.map
        (fun td => td.all_records.map (fun r => (r.id, r.parent_id)))
      = some [(1, none), (2, some 99)]
    ∧ some [1] ≠ some [1, 2] := by
  exact ⟨by decide, by decide, by decide⟩

/-! ## Parser lemmas: the records map through the loop -/

theorem mem_aupdate {m : List (Nat × JetsTraceRecord)} {k : Nat}
    {f : JetsTraceRecord → JetsTraceRecord} {q : Nat × JetsTraceRecord}
    (hq : q ∈ aupdate m k f) :
    ∃ q0 ∈ m, q.1 = q0.1
      ∧ ((q0.1 ≠ k ∧ q.2 = q0.2) ∨ (q0.1 = k ∧ q.2 = f q0.2)) := by
  rcases List.mem_map.mp hq with ⟨q0, hq0, hmap⟩
  by_cases h : q0.1 = k
  · rw [if_pos h] at hmap
    exact ⟨q0, hq0, by rw [← hmap], Or.inr ⟨h, by rw [← hmap]⟩⟩
  · rw [if_neg h] at hmap
    exact ⟨q0, hq0, by rw [← hmap], Or.inl ⟨h, by rw [← hmap]⟩⟩

theorem lookup_aupdate_isSome (m : List (Nat × JetsTraceRecord)) (k i : Nat)
    (f : JetsTraceRecord → JetsTraceRecord) :
    ((aupdate m k f).lookup i).isSome = (m.lookup i).isSome := by
  induction m with
  | nil => rfl
  | cons p t ih =>
    obtain ⟨a, b⟩ := p
    show (List.lookup i ((if a = k then (a, f b) else (a, b)) :: aupdate t k f)).isSome
      = (List.lookup i ((a, b) :: t)).isSome
    by_cases h : a = k
    · rw [if_pos h]
      show (match i == a with
            | true => some (f b)
            | false => List.lookup i (aupdate t k f)).isSome
        = (match i == a with
            | true => some b
            | false => List.lookup i t).isSome
      cases hba : i == a
      · exact ih
      · rfl
    · rw [if_neg h]
      show (match i == a with
            | true => some b
            | false => List.lookup i (aupdate t k f)).isSome
        = (match i == a with
            | true => some b
            | false => List.lookup i t).isSome
      cases hba : i == a
      · exact ih
      · rfl

theorem lookup_append_isSome (m1 m2 : List (Nat × JetsTraceRecord)) (i : Nat) :
    (((m1 ++ m2).lookup i)).isSome = ((m1.lookup i).isSome || (m2.lookup i).isSome) := by
  induction m1 with
  | nil => rfl
  | cons p t ih =>
    obtain ⟨a, b⟩ := p
    show (match i == a with
          | true => some b
          | false => List.lookup i (t ++ m2)).isSome
      = ((match i == a with
          | true => some b
          | false => List.lookup i t).isSome || (List.lookup i m2).isSome)
    cases hba : i == a
    · exact ih
    · rfl

theorem eventsFor_cons_event (i : Nat) (c : Int) (nm descr : String)
    (d : Option String) (rid : Nat) (rest : List RawLine) :
    eventsFor i (RawLine.entry (TraceLine.event c nm rid descr d) :: rest)
      = if rid = i then
          { clk := c, line_type := "event", name := nm, record_id := rid,
            description := descr, data := d } :: eventsFor i rest
        else eventsFor i rest := by
  unfold eventsFor
  rw [List.filterMap_cons]
  dsimp only
  by_cases h : rid = i
  · rw [if_pos h, if_pos h]
  · rw [if_neg h, if_neg h]

/-- What the loop does to each stored record's identity and event list:
every record pair of the final state either extends a pair of the initial
state by the events the remaining lines deliver to its key, or is a record
the lines themselves defined, its events exactly the lines' events for its
key, in input order. -/
theorem parseLoop_events (ls : List RawLine) :
    ∀ n st st', parseLoop n st ls = .ok st' →
      ∀ p ∈ st'.records,
        (∃ q ∈ st.records, q.1 = p.1 ∧ p.2.id = q.2.id
          ∧ p.2.events = q.2.events ++ eventsFor p.1 ls)
        ∨ (p.2.id = p.1 ∧ p.2.events = eventsFor p.1 ls
          ∧ (st.records.lookup p.1).isSome = false) := by
  induction ls with
  | nil =>
    intro n st st' h p hp
    injection h with h2
    subst h2
    exact Or.inl ⟨p, hp, rfl, rfl, (List.append_nil _).symm⟩
  | cons l rest ih =>
    intro n st st' h p hp
    cases l with
    | blank =>
      simp only [parseLoop] at h
      rcases ih (n + 1) st st' h p hp with ⟨q, hq, e1, e2, e3⟩ | ⟨e2, e3, e4⟩
      · exact Or.inl ⟨q, hq, e1, e2, e3⟩
      · exact Or.inr ⟨e2, e3, e4⟩
    | malformed =>
      simp only [parseLoop] at h
      exact Except.noConfusion h
    | entry tl =>
      cases tl with
      | header v m =>
        simp only [parseLoop] at h
        split at h
        · exact Except.noConfusion h
        · rcases ih (n + 1) _ st' h p hp with ⟨q, hq, e1, e2, e3⟩ | ⟨e2, e3, e4⟩
          · exact Or.inl ⟨q, hq, e1, e2, e3⟩
          · exact Or.inr ⟨e2, e3, e4⟩
      | record c nm rty i pid descr d =>
        simp only [parseLoop] at h
        split at h
        · exact Except.noConfusion h
        · rename_i hdup
          rcases ih (n + 1) _ st' h p hp with ⟨q, hq, e1, e2, e3⟩ | ⟨e2, e3, e4⟩
          · rcases List.mem_append.mp hq with hq1 | hq1
            · exact Or.inl ⟨q, hq1, e1, e2, e3⟩
            · have hqe := List.mem_singleton.mp hq1
              subst hqe
              refine Or.inr ⟨?_, e3, ?_⟩
              · rw [e2, ← e1]
              · rw [← e1]
                exact Bool.eq_false_iff.mpr hdup
          · refine Or.inr ⟨e2, e3, ?_⟩
            rw [lookup_append_isSome] at e4
            exact (Bool.or_eq_false_iff.mp e4).1
      | record_end c rid =>
        simp only [parseLoop] at h
        split at h
        · exact Except.noConfusion h
        · rename_i r hlk
          rcases ih (n + 1) _ st' h p hp with ⟨q, hq, e1, e2, e3⟩ | ⟨e2, e3, e4⟩
          · have hqm : q ∈ aupdate st.records rid
                (fun r0 => { r0 with end_clk := some c, duration := some (c - r0.clk) }) := hq
            rcases mem_aupdate hqm with ⟨q0, hq0, hq1, ⟨_, hq2⟩ | ⟨_, hq2⟩⟩
            · refine Or.inl ⟨q0, hq0, hq1 ▸ e1, ?_, ?_⟩
              · rw [e2, hq2]
              · rw [e3, hq2]
                rfl
            · refine Or.inl ⟨q0, hq0, hq1 ▸ e1, ?_, ?_⟩
              · rw [e2, hq2]
              · rw [e3, hq2]
                rfl
          · refine Or.inr ⟨e2, e3, ?_⟩
            rw [lookup_aupdate_isSome] at e4
            exact e4
      | annot nm rid descr d =>
        simp only [parseLoop] at h
        split at h
        · exact Except.noConfusion h
        · rename_i r hlk
          rcases ih (n + 1) _ st' h p hp with ⟨q, hq, e1, e2, e3⟩ | ⟨e2, e3, e4⟩
          · have hqm : q ∈ aupdate st.records rid
                (fun r0 => { r0 with annots := (r0.annots ++ [{ line_type := "annotation", name := nm, record_id := rid, description := descr, data := d }]) }) := hq
            rcases mem_aupdate hqm with ⟨q0, hq0, hq1, ⟨_, hq2⟩ | ⟨_, hq2⟩⟩
            · refine Or.inl ⟨q0, hq0, hq1 ▸ e1, ?_, ?_⟩
              · rw [e2, hq2]
              · rw [e3, hq2]
                rfl
            · refine Or.inl ⟨q0, hq0, hq1 ▸ e1, ?_, ?_⟩
              · rw [e2, hq2]
              · rw [e3, hq2]
                rfl
          · refine Or.inr ⟨e2, e3, ?_⟩
            rw [lookup_aupdate_isSome] at e4
            exact e4
      | event c nm rid descr d =>
        simp only [parseLoop] at h
        split at h
        · exact Except.noConfusion h
        · rename_i r hlk
          rcases ih (n + 1) _ st' h p hp with ⟨q, hq, e1, e2, e3⟩ | ⟨e2, e3, e4⟩
          · have hqm : q ∈ aupdate st.records rid
                (fun r0 => { r0 with events := (r0.events ++ [{ clk := c, line_type := "event", name := nm, record_id := rid, description := descr, data := d }]) }) := hq
            rcases mem_aupdate hqm with ⟨q0, hq0, hq1, ⟨hne, hq2⟩ | ⟨heq, hq2⟩⟩
            · refine Or.inl ⟨q0, hq0, hq1 ▸ e1, ?_, ?_⟩
              · rw [e2, hq2]
              · rw [eventsFor_cons_event, if_neg ?_]
                · rw [e3, hq2]
                · rw [← e1, hq1]
                  intro hc
                  exact hne hc.symm
            · refine Or.inl ⟨q0, hq0, hq1 ▸ e1, ?_, ?_⟩
              · rw [e2, hq2]
              · rw [eventsFor_cons_event, if_pos ?_]
                · rw [e3, hq2]
                  show (q0.2.events ++ [_]) ++ eventsFor p.1 rest = _
                  rw [List.append_assoc, List.singleton_append]
                · rw [← e1, hq1, heq]
          · have hne : rid ≠ p.1 := by
              intro hc
              rw [lookup_aupdate_isSome] at e4
              rw [← hc, hlk] at e4
              exact Bool.noConfusion e4
            refine Or.inr ⟨e2, ?_, ?_⟩
            · rw [eventsFor_cons_event, if_neg hne]
              exact e3
            · rw [lookup_aupdate_isSome] at e4
              exact e4
      | footer a b c d =>
        simp only [parseLoop] at h
        rcases ih (n + 1) _ st' h p hp with ⟨q, hq, e1, e2, e3⟩ | ⟨e2, e3, e4⟩
        · exact Or.inl ⟨q, hq, e1, e2, e3⟩
        · exact Or.inr ⟨e2, e3, e4⟩

/-- Membership in the built arena, projected to the fields the arena
construction does not touch. -/
theorem mem_buildTrace_all_records {hd : JetsTraceHeader}
    {ft : Option JetsTraceFooter} {recs : List JetsTraceRecord}
    {r : JetsTraceRecord}
    (hr : r ∈ (buildTrace hd ft recs).all_records) :
    ∃ r0 ∈ recs, r.id = r0.id ∧ r.events = r0.events := by
  unfold buildTrace at hr
  dsimp only at hr
  rcases List.mem_map.mp hr with ⟨p, hp, hFp⟩
  have hmem : p.2 ∈ sortStable recCmpLt recs :=
    List.get?_mem (mem_enum_get? hp)
  have hrec : p.2 ∈ recs := (sortStable_perm recCmpLt recs).subset hmem
  exact ⟨p.2, hrec, by rw [← hFp], by rw [← hFp]⟩

/-- C2 (amended): the events of every record of a successfully parsed
trace are exactly the input's event lines for that record's id, in input
order — `event_at` retrieves them by input position; the parser performs
no sorting by timestamp, so ascending-clk retrieval holds only when the
input's event lines already arrive in ascending order. -/
theorem event_order_contract (ls : List RawLine) (td : JetsTraceData)
    (h : parse_trace ls = .ok td) :
    ∀ r ∈ td.all_records,
      r.events = eventsFor r.id ls
      ∧ ∀ i, r.event_at i = (eventsFor r.id ls).get? i := by
  unfold parse_trace at h
  split at h
  · exact Except.noConfusion h
  · rename_i st hlp
    split at h
    · exact Except.noConfusion h
    · rename_i hd hh
      injection h with h2
      subst h2
      intro r hr
      rcases mem_buildTrace_all_records hr with ⟨r0, hr0, hid, hev⟩
      rcases List.mem_map.mp hr0 with ⟨q, hq, hqr0⟩
      rcases parseLoop_events ls 0 _ st hlp q hq with ⟨q', hq', _⟩ | ⟨e2, e3, _⟩
      · exact absurd hq' (List.not_mem_nil q')
      · have hevents : r.events = eventsFor r.id ls := by
          rw [hev, ← hqr0, e3, ← e2, hqr0, ← hid]
        exact ⟨hevents, fun i => by
          show r.events.get? i = _
          rw [hevents]⟩

/-- Witness for C2 on the two-events example input. -/
theorem event_order_contract_witness :
    ∃ td, parse_trace exC2Lines = Except.ok td
      ∧ ∀ r ∈ td.all_records,
          r.events = eventsFor r.id exC2Lines
          ∧ ∀ i, r.event_at i = (eventsFor r.id exC2Lines).get? i := by
  cases hp : parse_trace exC2Lines with
  | error e =>
    exfalso
    have h1 : (parse_trace exC2Lines).toOption.isSome = true := by decide
    rw [hp] at h1
    cases h1
  | ok td => exact ⟨td, rfl, event_order_contract exC2Lines td hp⟩

/-- C2 counterexample: event lines with clocks 10 then 5 for one record
are retrievable exactly in that input order — `event_at 0` has clk 10,
`event_at 1` has clk 5 — so ascending-timestamp retrieval fails. -/
theorem event_order_counterexample :
    (parse_trace exC2Lines).toOption.map
        (fun td => td.all_records.map (fun r => r.events.map (fun ev => ev.clk)))
      = some [[10, 5]]
    ∧ (parse_trace exC2Lines).toOption.map
        (fun td => td.all_records.map (fun r =>
          ((r.event_at 0).map (fun ev => ev.clk),
           (r.event_at 1).map (fun ev => ev.clk))))
      = some [(some 10, some 5)]
    ∧ ¬ ((10 : Int) ≤ 5) := by
  exact ⟨by decide, by decide, by decide⟩

/-! ## Parser lemmas: success characterization of the loop -/

theorem lookup_isSome_iff_mem_keys (m : List (Nat × JetsTraceRecord)) (i : Nat) :
    (m.lookup i).isSome = true ↔ i ∈ m.map Prod.fst := by
  induction m with
  | nil =>
    constructor
    · intro h
      exact Bool.noConfusion h
    · intro h
      exact absurd h (List.not_mem_nil i)
  | cons p t ih =>
    obtain ⟨a, b⟩ := p
    show ((match i == a with
          | true => some b
          | false => List.lookup i t).isSome = true) ↔ i ∈ a :: t.map Prod.fst
    cases hba : i == a
    · rw [List.mem_cons]
      constructor
      · intro h
        exact Or.inr (ih.mp h)
      · intro h
        rcases h with h | h
        · rw [h, beq_self_eq_true] at hba
          exact Bool.noConfusion hba
        · exact ih.mpr h
    · constructor
      · intro _
        rw [List.mem_cons]
        exact Or.inl (eq_of_beq hba)
      · intro _
        rfl

theorem keys_aupdate (m : List (Nat × JetsTraceRecord)) (k : Nat)
    (f : JetsTraceRecord → JetsTraceRecord) :
    (aupdate m k f).map Prod.fst = m.map Prod.fst := by
  unfold aupdate
  rw [List.map_map]
  refine List.map_congr_left ?_
  intro p _
  by_cases h : p.1 = k
  · rw [Function.comp_apply, if_pos h]
  · rw [Function.comp_apply, if_neg h]

theorem filterMap_cons_toList (f : α → Option β) (a : α) (l : List α) :
    (a :: l).filterMap f = (f a).toList ++ l.filterMap f := by
  rw [List.filterMap_cons]
  cases f a <;> rfl

/-- The loop succeeds exactly when the pure per-line scan accepts,
tracking only the defined record ids. -/
theorem parseLoop_isOk_iff (ls : List RawLine) :
    ∀ n st, (∃ st', parseLoop n st ls = Except.ok st')
      ↔ loopOK n (st.records.map Prod.fst) ls = true := by
  induction ls with
  | nil =>
    intro n st
    exact ⟨fun _ => rfl, fun _ => ⟨st, rfl⟩⟩
  | cons l rest ih =>
    intro n st
    cases l with
    | blank => exact ih (n + 1) st
    | malformed =>
      constructor
      · rintro ⟨st', h⟩
        exact Except.noConfusion h
      · intro h
        exact Bool.noConfusion h
    | entry tl =>
      cases tl with
      | header v m =>
        by_cases hn : n = 0
        · subst hn
          exact ih 1 { st with header := some ⟨v, m⟩ }
        · constructor
          · rintro ⟨st', h⟩
            simp only [parseLoop] at h
            rw [if_pos hn] at h
            exact Except.noConfusion h
          · intro h
            simp only [loopOK] at h
            rw [Bool.and_eq_true, decide_eq_true_eq] at h
            exact absurd h.1 hn
      | record c nm rty i pid descr d =>
        by_cases hdup : (st.records.lookup i).isSome = true
        · have hmem : i ∈ st.records.map Prod.fst :=
            (lookup_isSome_iff_mem_keys _ _).mp hdup
          constructor
          · rintro ⟨st', h⟩
            simp only [parseLoop] at h
            rw [if_pos hdup] at h
            exact Except.noConfusion h
          · intro h
            simp only [loopOK] at h
            rw [Bool.and_eq_true, Bool.not_eq_true', decide_eq_false_iff_not] at h
            exact absurd hmem h.1
        · have hmem : i ∉ st.records.map Prod.fst := fun hm =>
            hdup ((lookup_isSome_iff_mem_keys _ _).mpr hm)
          constructor
          · rintro ⟨st', h⟩
            simp only [parseLoop] at h
            rw [if_neg hdup] at h
            simp only [loopOK]
            rw [Bool.and_eq_true, Bool.not_eq_true', decide_eq_false_iff_not]
            refine ⟨hmem, ?_⟩
            have h2 := (ih (n + 1) { st with records := st.records ++ [(i, { clk := c, name := nm, record_type := rty, id := i, parent_id := pid, description := descr, data := d, end_clk := none, duration := none, child_indices := [], annots := [], events := [] })] }).mp ⟨st', h⟩
            have h3 : loopOK (n + 1) ((st.records ++ [(i, ({ clk := c, name := nm, record_type := rty, id := i, parent_id := pid, description := descr, data := d, end_clk := none, duration := none, child_indices := [], annots := [], events := [] } : JetsTraceRecord))]).map Prod.fst) rest = true := h2
            rw [List.map_append] at h3
            exact h3
          · intro h
            simp only [loopOK] at h
            rw [Bool.and_eq_true] at h
            have h4 : loopOK (n + 1) ((st.records ++ [(i, ({ clk := c, name := nm, record_type := rty, id := i, parent_id := pid, description := descr, data := d, end_clk := none, duration := none, child_indices := [], annots := [], events := [] } : JetsTraceRecord))]).map Prod.fst) rest = true := by
              rw [List.map_append]
              exact h.2
            obtain ⟨st', hst'⟩ := (ih (n + 1) { st with records := st.records ++ [(i, { clk := c, name := nm, record_type := rty, id := i, parent_id := pid, description := descr, data := d, end_clk := none, duration := none, child_indices := [], annots := [], events := [] })] }).mpr h4
            refine ⟨st', ?_⟩
            simp only [parseLoop]
            rw [if_neg hdup]
            exact hst'
      | record_end c rid =>
        cases hlk : st.records.lookup rid with
        | none =>
          have hmem : rid ∉ st.records.map Prod.fst := by
            intro hm
            have h2 := (lookup_isSome_iff_mem_keys _ _).mpr hm
            rw [hlk] at h2
            exact Bool.noConfusion h2
          constructor
          · rintro ⟨st', h⟩
            simp only [parseLoop] at h
            rw [hlk] at h
            exact Except.noConfusion h
          · intro h
            simp only [loopOK] at h
            rw [Bool.and_eq_true, decide_eq_true_eq] at h
            exact absurd h.1 hmem
        | some r =>
          have hmem : rid ∈ st.records.map Prod.fst :=
            (lookup_isSome_iff_mem_keys _ _).mp (by rw [hlk]; rfl)
          constructor
          · rintro ⟨st', h⟩
            simp only [parseLoop] at h
            rw [hlk] at h
            simp only [loopOK]
            rw [Bool.and_eq_true, decide_eq_true_eq]
            refine ⟨hmem, ?_⟩
            have h2 := (ih (n + 1) { st with records := aupdate st.records rid (fun r0 => { r0 with end_clk := some c, duration := some (c - r0.clk) }) }).mp ⟨st', h⟩
            have h3 : loopOK (n + 1) ((aupdate st.records rid (fun r0 => { r0 with end_clk := some c, duration := some (c - r0.clk) })).map Prod.fst) rest = true := h2
            rw [keys_aupdate] at h3
            exact h3
          · intro h
            simp only [loopOK] at h
            rw [Bool.and_eq_true] at h
            have h4 : loopOK (n + 1) ((aupdate st.records rid (fun r0 => { r0 with end_clk := some c, duration := some (c - r0.clk) })).map Prod.fst) rest = true := by
              rw [keys_aupdate]
              exact h.2
            obtain ⟨st', hst'⟩ := (ih (n + 1) { st with records := aupdate st.records rid (fun r0 => { r0 with end_clk := some c, duration := some (c - r0.clk) }) }).mpr h4
            refine ⟨st', ?_⟩
            simp only [parseLoop]
            rw [hlk]
            exact hst'
      | annot nm rid descr d =>
        cases hlk : st.records.lookup rid with
        | none =>
          have hmem : rid ∉ st.records.map Prod.fst := by
            intro hm
            have h2 := (lookup_isSome_iff_mem_keys _ _).mpr hm
            rw [hlk] at h2
            exact Bool.noConfusion h2
          constructor
          · rintro ⟨st', h⟩
            simp only [parseLoop] at h
            rw [hlk] at h
            exact Except.noConfusion h
          · intro h
            simp only [loopOK] at h
            rw [Bool.and_eq_true, decide_eq_true_eq] at h
            exact absurd h.1 hmem
        | some r =>
          have hmem : rid ∈ st.records.map Prod.fst :=
            (lookup_isSome_iff_mem_keys _ _).mp (by rw [hlk]; rfl)
          constructor
          · rintro ⟨st', h⟩
            simp only [parseLoop] at h
            rw [hlk] at h
            simp only [loopOK]
            rw [Bool.and_eq_true, decide_eq_true_eq]
            refine ⟨hmem, ?_⟩
            have h2 := (ih (n + 1) { st with records := aupdate st.records rid (fun r0 => { r0 with annots := (r0.annots ++ [{ line_type := "annotation", name := nm, record_id := rid, description := descr, data := d }]) }) }).mp ⟨st', h⟩
            have h3 : loopOK (n + 1) ((aupdate st.records rid (fun r0 => { r0 with annots := (r0.annots ++ [{ line_type := "annotation", name := nm, record_id := rid, description := descr, data := d }]) })).map Prod.fst) rest = true := h2
            rw [keys_aupdate] at h3
            exact h3
          · intro h
            simp only [loopOK] at h
            rw [Bool.and_eq_true] at h
            have h4 : loopOK (n + 1) ((aupdate st.records rid (fun r0 => { r0 with annots := (r0.annots ++ [{ line_type := "annotation", name := nm, record_id := rid, description := descr, data := d }]) })).map Prod.fst) rest = true := by
              rw [keys_aupdate]
              exact h.2
            obtain ⟨st', hst'⟩ := (ih (n + 1) { st with records := aupdate st.records rid (fun r0 => { r0 with annots := (r0.annots ++ [{ line_type := "annotation", name := nm, record_id := rid, description := descr, data := d }]) }) }).mpr h4
            refine ⟨st', ?_⟩
            simp only [parseLoop]
            rw [hlk]
            exact hst'
      | event c nm rid descr d =>
        cases hlk : st.records.lookup rid with
        | none =>
          have hmem : rid ∉ st.records.map Prod.fst := by
            intro hm
            have h2 := (lookup_isSome_iff_mem_keys _ _).mpr hm
            rw [hlk] at h2
            exact Bool.noConfusion h2
          constructor
          · rintro ⟨st', h⟩
            simp only [parseLoop] at h
            rw [hlk] at h
            exact Except.noConfusion h
          · intro h
            simp only [loopOK] at h
            rw [Bool.and_eq_true, decide_eq_true_eq] at h
            exact absurd h.1 hmem
        | some r =>
          have hmem : rid ∈ st.records.map Prod.fst :=
            (lookup_isSome_iff_mem_keys _ _).mp (by rw [hlk]; rfl)
          constructor
          · rintro ⟨st', h⟩
            simp only [parseLoop] at h
            rw [hlk] at h
            simp only [loopOK]
            rw [Bool.and_eq_true, decide_eq_true_eq]
            refine ⟨hmem, ?_⟩
            have h2 := (ih (n + 1) { st with records := aupdate st.records rid (fun r0 => { r0 with events := (r0.events ++ [{ clk := c, line_type := "event", name := nm, record_id := rid, description := descr, data := d }]) }) }).mp ⟨st', h⟩
            have h3 : loopOK (n + 1) ((aupdate st.records rid (fun r0 => { r0 with events := (r0.events ++ [{ clk := c, line_type := "event", name := nm, record_id := rid, description := descr, data := d }]) })).map Prod.fst) rest = true := h2
            rw [keys_aupdate] at h3
            exact h3
          · intro h
            simp only [loopOK] at h
            rw [Bool.and_eq_true] at h
            have h4 : loopOK (n + 1) ((aupdate st.records rid (fun r0 => { r0 with events := (r0.events ++ [{ clk := c, line_type := "event", name := nm, record_id := rid, description := descr, data := d }]) })).map Prod.fst) rest = true := by
              rw [keys_aupdate]
              exact h.2
            obtain ⟨st', hst'⟩ := (ih (n + 1) { st with records := aupdate st.records rid (fun r0 => { r0 with events := (r0.events ++ [{ clk := c, line_type := "event", name := nm, record_id := rid, description := descr, data := d }]) }) }).mpr h4
            refine ⟨st', ?_⟩
            simp only [parseLoop]
            rw [hlk]
            exact hst'
      | footer a b c d =>
        exact ih (n + 1) { st with footer := some ⟨a, b, c, d⟩ }

/-- The final state has a header iff the initial one had or some line is a
header entry. -/
theorem parseLoop_header_isSome (ls : List RawLine) :
    ∀ n st st', parseLoop n st ls = Except.ok st' →
      st'.header.isSome = (st.header.isSome || ls.any isHeaderLine) := by
  induction ls with
  | nil =>
    intro n st st' h
    injection h with h2
    subst h2
    rw [List.any_nil, Bool.or_false]
  | cons l rest ih =>
    intro n st st' h
    cases l with
    | blank =>
      simp only [parseLoop] at h
      rw [ih (n + 1) st st' h, List.any_cons]
      rfl
    | malformed =>
      simp only [parseLoop] at h
      exact Except.noConfusion h
    | entry tl =>
      cases tl with
      | header v m =>
        simp only [parseLoop] at h
        split at h
        · exact Except.noConfusion h
        · rw [ih (n + 1) _ st' h, List.any_cons]
          show (true || rest.any isHeaderLine)
            = (st.header.isSome || (true || rest.any isHeaderLine))
          rw [Bool.true_or, Bool.or_true]
      | record c nm rty i pid descr d =>
        simp only [parseLoop] at h
        split at h
        · exact Except.noConfusion h
        · rw [ih (n + 1) _ st' h, List.any_cons]
          rfl
      | record_end c rid =>
        simp only [parseLoop] at h
        split at h
        · exact Except.noConfusion h
        · rw [ih (n + 1) _ st' h, List.any_cons]
          rfl
      | annot nm rid descr d =>
        simp only [parseLoop] at h
        split at h
        · exact Except.noConfusion h
        · rw [ih (n + 1) _ st' h, List.any_cons]
          rfl
      | event c nm rid descr d =>
        simp only [parseLoop] at h
        split at h
        · exact Except.noConfusion h
        · rw [ih (n + 1) _ st' h, List.any_cons]
          rfl
      | footer a b c d =>
        simp only [parseLoop] at h
        rw [ih (n + 1) _ st' h, List.any_cons]
        rfl

/-- Splitting the positional loop condition at the head line. -/
theorem specLoopCond_cons (n : Nat) (ids : List Nat) (l : RawLine)
    (rest : List RawLine) :
    specLoopCond n ids (l :: rest) ↔
      (l ≠ RawLine.malformed
       ∧ (isHeaderLine l = true → n = 0)
       ∧ (∀ i, recIdOf l = some i → i ∉ ids)
       ∧ (∀ rid, refIdOf l = some rid → rid ∈ ids)
       ∧ specLoopCond (n + 1) (ids ++ (recIdOf l).toList) rest) := by
  constructor
  · rintro ⟨h1, h2, h3, h4⟩
    refine ⟨?_, ?_, ?_, ?_, ?_, ?_, ?_, ?_⟩
    · intro hl
      exact h1 (hl ▸ List.mem_cons_self l rest)
    · intro hh
      have := h2 0 l rfl hh
      omega
    · intro i hi
      exact (h3 0 i hi).1
    · intro rid hrid
      rcases h4 0 rid hrid with h | h
      · exact h
      · exact absurd h (List.not_mem_nil rid)
    · intro hm
      exact h1 (List.mem_cons_of_mem l hm)
    · intro k hl hk hh
      have := h2 (k + 1) hl hk hh
      omega
    · intro k i hk
      have hO := h3 (k + 1) i hk
      have hconv : ((l :: rest).take (k + 1)).filterMap recIdOf
          = (recIdOf l).toList ++ (rest.take k).filterMap recIdOf := by
        show ((l :: rest.take k)).filterMap recIdOf = _
        rw [filterMap_cons_toList]
      rw [hconv] at hO
      constructor
      · rw [List.mem_append]
        rintro (h | h)
        · exact hO.1 h
        · exact hO.2 (List.mem_append.mpr (Or.inl h))
      · intro h
        exact hO.2 (List.mem_append.mpr (Or.inr h))
    · intro k rid hk
      have hO := h4 (k + 1) rid hk
      have hconv : ((l :: rest).take (k + 1)).filterMap recIdOf
          = (recIdOf l).toList ++ (rest.take k).filterMap recIdOf := by
        show ((l :: rest.take k)).filterMap recIdOf = _
        rw [filterMap_cons_toList]
      rw [hconv] at hO
      rcases hO with h | h
      · exact Or.inl (List.mem_append.mpr (Or.inl h))
      · rcases List.mem_append.mp h with h | h
        · exact Or.inl (List.mem_append.mpr (Or.inr h))
        · exact Or.inr h
  · rintro ⟨a1, a2, a3, a4, b1, b2, b3, b4⟩
    refine ⟨?_, ?_, ?_, ?_⟩
    · intro hm
      rcases List.mem_cons.mp hm with h | h
      · exact a1 h.symm
      · exact b1 h
    · intro k hl hk hh
      cases k with
      | zero =>
        injection hk with hk2
        subst hk2
        rw [a2 hh]
      | succ k =>
        have hk' : rest.get? k = some hl := hk
        have := b2 k hl hk' hh
        omega
    · intro k i hk
      cases k with
      | zero =>
        have hk' : recIdOf l = some i := hk
        refine ⟨a3 i hk', ?_⟩
        intro hm
        exact absurd hm (List.not_mem_nil i)
      | succ k =>
        have hconv : ((l :: rest).take (k + 1)).filterMap recIdOf
            = (recIdOf l).toList ++ (rest.take k).filterMap recIdOf := by
          show ((l :: rest.take k)).filterMap recIdOf = _
          rw [filterMap_cons_toList]
        have hk' : (rest.get? k).bind recIdOf = some i := hk
        have hO := b3 k i hk'
        refine ⟨?_, ?_⟩
        · intro hm
          exact hO.1 (List.mem_append.mpr (Or.inl hm))
        · rw [hconv, List.mem_append]
          rintro (h | h)
          · exact hO.1 (List.mem_append.mpr (Or.inr h))
          · exact hO.2 h
    · intro k rid hk
      cases k with
      | zero =>
        have hk' : refIdOf l = some rid := hk
        exact Or.inl (a4 rid hk')
      | succ k =>
        have hconv : ((l :: rest).take (k + 1)).filterMap recIdOf
            = (recIdOf l).toList ++ (rest.take k).filterMap recIdOf := by
          show ((l :: rest.take k)).filterMap recIdOf = _
          rw [filterMap_cons_toList]
        have hk' : (rest.get? k).bind refIdOf = some rid := hk
        rcases b4 k rid hk' with h | h
        · rcases List.mem_append.mp h with h2 | h2
          · exact Or.inl h2
          · rw [hconv]
            exact Or.inr (List.mem_append.mpr (Or.inl h2))
        · rw [hconv]
          exact Or.inr (List.mem_append.mpr (Or.inr h))

/-- The pure scan accepts exactly under the positional condition. -/
theorem loopOK_iff_specLoopCond (ls : List RawLine) :
    ∀ n ids, loopOK n ids ls = true ↔ specLoopCond n ids ls := by
  induction ls with
  | nil =>
    intro n ids
    constructor
    · intro _
      refine ⟨List.not_mem_nil _, ?_, ?_, ?_⟩
      · intro k hl hk
        exact absurd hk (fun hc => Option.noConfusion hc)
      · intro k i hk
        exact absurd hk (fun hc => Option.noConfusion hc)
      · intro k rid hk
        exact absurd hk (fun hc => Option.noConfusion hc)
    · intro _
      rfl
  | cons l rest ih =>
    intro n ids
    rw [specLoopCond_cons]
    cases l with
    | blank =>
      show loopOK (n + 1) ids rest = true ↔ _
      rw [ih (n + 1) ids]
      constructor
      · intro h
        refine ⟨fun hc => RawLine.noConfusion hc, fun hc => Bool.noConfusion hc,
          fun i hi => absurd hi (fun hc => Option.noConfusion hc),
          fun rid hr => absurd hr (fun hc => Option.noConfusion hc), ?_⟩
        show specLoopCond (n + 1) (ids ++ []) rest
        rw [List.append_nil]
        exact h
      · rintro ⟨_, _, _, _, h5⟩
        have h5' : specLoopCond (n + 1) (ids ++ []) rest := h5
        rw [List.append_nil] at h5'
        exact h5'
    | malformed =>
      constructor
      · intro h
        exact Bool.noConfusion h
      · rintro ⟨a1, _⟩
        exact absurd rfl a1
    | entry tl =>
      cases tl with
      | header v m =>
        show (decide (n = 0) && loopOK (n + 1) ids rest) = true ↔ _
        rw [Bool.and_eq_true, decide_eq_true_eq, ih (n + 1) ids]
        constructor
        · rintro ⟨hn, h⟩
          refine ⟨fun hc => RawLine.noConfusion hc, fun _ => hn,
            fun i hi => absurd hi (fun hc => Option.noConfusion hc),
            fun rid hr => absurd hr (fun hc => Option.noConfusion hc), ?_⟩
          show specLoopCond (n + 1) (ids ++ []) rest
          rw [List.append_nil]
          exact h
        · rintro ⟨_, a2, _, _, h5⟩
          refine ⟨a2 rfl, ?_⟩
          have h5' : specLoopCond (n + 1) (ids ++ []) rest := h5
          rw [List.append_nil] at h5'
          exact h5'
      | record c nm rty i pid descr d =>
        show (!(decide (i ∈ ids)) && loopOK (n + 1) (ids ++ [i]) rest) = true ↔ _
        rw [Bool.and_eq_true, Bool.not_eq_true', decide_eq_false_iff_not,
          ih (n + 1) (ids ++ [i])]
        constructor
        · rintro ⟨hni, h⟩
          refine ⟨fun hc => RawLine.noConfusion hc, fun hc => Bool.noConfusion hc,
            ?_, fun rid hr => absurd hr (fun hc => Option.noConfusion hc), ?_⟩
          · intro i2 hi2
            have hi2' : some i = some i2 := hi2
            injection hi2' with hi2'
            subst hi2'
            exact hni
          · exact h
        · rintro ⟨_, _, a3, _, h5⟩
          exact ⟨a3 i rfl, h5⟩
      | record_end c rid =>
        show (decide (rid ∈ ids) && loopOK (n + 1) ids rest) = true ↔ _
        rw [Bool.and_eq_true, decide_eq_true_eq, ih (n + 1) ids]
        constructor
        · rintro ⟨hm, h⟩
          refine ⟨fun hc => RawLine.noConfusion hc, fun hc => Bool.noConfusion hc,
            fun i hi => absurd hi (fun hc => Option.noConfusion hc), ?_, ?_⟩
          · intro rid2 hr
            have hr' : some rid = some rid2 := hr
            injection hr' with hr'
            subst hr'
            exact hm
          · show specLoopCond (n + 1) (ids ++ []) rest
            rw [List.append_nil]
            exact h
        · rintro ⟨_, _, _, a4, h5⟩
          refine ⟨a4 rid rfl, ?_⟩
          have h5' : specLoopCond (n + 1) (ids ++ []) rest := h5
          rw [List.append_nil] at h5'
          exact h5'
      | annot nm rid descr d =>
        show (decide (rid ∈ ids) && loopOK (n + 1) ids rest) = true ↔ _
        rw [Bool.and_eq_true, decide_eq_true_eq, ih (n + 1) ids]
        constructor
        · rintro ⟨hm, h⟩
          refine ⟨fun hc => RawLine.noConfusion hc, fun hc => Bool.noConfusion hc,
            fun i hi => absurd hi (fun hc => Option.noConfusion hc), ?_, ?_⟩
          · intro rid2 hr
            have hr' : some rid = some rid2 := hr
            injection hr' with hr'
            subst hr'
            exact hm
          · show specLoopCond (n + 1) (ids ++ []) rest
            rw [List.append_nil]
            exact h
        · rintro ⟨_, _, _, a4, h5⟩
          refine ⟨a4 rid rfl, ?_⟩
          have h5' : specLoopCond (n + 1) (ids ++ []) rest := h5
          rw [List.append_nil] at h5'
          exact h5'
      | event c nm rid descr d =>
        show (decide (rid ∈ ids) && loopOK (n + 1) ids rest) = true ↔ _
        rw [Bool.and_eq_true, decide_eq_true_eq, ih (n + 1) ids]
        constructor
        · rintro ⟨hm, h⟩
          refine ⟨fun hc => RawLine.noConfusion hc, fun hc => Bool.noConfusion hc,
            fun i hi => absurd hi (fun hc => Option.noConfusion hc), ?_, ?_⟩
          · intro rid2 hr
            have hr' : some rid = some rid2 := hr
            injection hr' with hr'
            subst hr'
            exact hm
          · show specLoopCond (n + 1) (ids ++ []) rest
            rw [List.append_nil]
            exact h
        · rintro ⟨_, _, _, a4, h5⟩
          refine ⟨a4 rid rfl, ?_⟩
          have h5' : specLoopCond (n + 1) (ids ++ []) rest := h5
          rw [List.append_nil] at h5'
          exact h5'
      | footer a b c d =>
        show loopOK (n + 1) ids rest = true ↔ _
        rw [ih (n + 1) ids]
        constructor
        · intro h
          refine ⟨fun hc => RawLine.noConfusion hc, fun hc => Bool.noConfusion hc,
            fun i hi => absurd hi (fun hc => Option.noConfusion hc),
            fun rid hr => absurd hr (fun hc => Option.noConfusion hc), ?_⟩
          show specLoopCond (n + 1) (ids ++ []) rest
          rw [List.append_nil]
          exact h
        · rintro ⟨_, _, _, _, h5⟩
          have h5' : specLoopCond (n + 1) (ids ++ []) rest := h5
          rw [List.append_nil] at h5'
          exact h5'

theorem nodup_filterMap_iff (f : RawLine → Option Nat) (ls : List RawLine) :
    (ls.filterMap f).Nodup
      ↔ ∀ k i, (ls.get? k).bind f = some i → i ∉ (ls.take k).filterMap f := by
  induction ls with
  | nil =>
    constructor
    · intro _ k i hk
      exact absurd hk (fun hc => Option.noConfusion hc)
    · intro _
      exact List.nodup_nil
  | cons a rest ih =>
    cases hfa : f a with
    | none =>
      have hstep : (a :: rest).filterMap f = rest.filterMap f := by
        rw [List.filterMap_cons, hfa]
      rw [hstep, ih]
      constructor
      · intro h k i hk
        cases k with
        | zero =>
          have hk' : f a = some i := hk
          rw [hfa] at hk'
          exact absurd hk' (fun hc => Option.noConfusion hc)
        | succ k =>
          have hk' : (rest.get? k).bind f = some i := hk
          have hni := h k i hk'
          intro hmem
          have hmem' : i ∈ (a :: rest.take k).filterMap f := hmem
          rw [List.filterMap_cons, hfa] at hmem'
          exact hni hmem'
      · intro h k i hk
        have hni := h (k + 1) i hk
        intro hmem
        apply hni
        show i ∈ (a :: rest.take k).filterMap f
        rw [List.filterMap_cons, hfa]
        exact hmem
    | some b =>
      have hstep : (a :: rest).filterMap f = b :: rest.filterMap f := by
        rw [List.filterMap_cons, hfa]
      rw [hstep, List.nodup_cons, ih]
      constructor
      · rintro ⟨hb, h⟩ k i hk
        cases k with
        | zero =>
          have hk' : f a = some i := hk
          rw [hfa] at hk'
          injection hk' with hbi
          subst hbi
          intro hmem
          exact absurd hmem (List.not_mem_nil b)
        | succ k =>
          have hk' : (rest.get? k).bind f = some i := hk
          have hni := h k i hk'
          intro hmem
          have hmem' : i ∈ (a :: rest.take k).filterMap f := hmem
          rw [List.filterMap_cons, hfa] at hmem'
          rcases List.mem_cons.mp hmem' with hib | hmem2
          · subst hib
            apply hb
            cases hglk : rest.get? k with
            | none =>
              rw [hglk] at hk'
              exact absurd hk' (fun hc => Option.noConfusion hc)
            | some a' =>
              rw [hglk] at hk'
              have ha' : a' ∈ rest := List.get?_mem hglk
              exact List.mem_filterMap.mpr ⟨a', ha', hk'⟩
          · exact hni hmem2
      · intro h
        constructor
        · intro hbmem
          rcases List.mem_filterMap.mp hbmem with ⟨a', ha', hfa'⟩
          rcases List.mem_iff_get?.mp ha' with ⟨k, hk⟩
          have hbind : ((a :: rest).get? (k + 1)).bind f = some b := by
            show (rest.get? k).bind f = some b
            rw [hk]
            exact hfa'
          have hni := h (k + 1) b hbind
          apply hni
          show b ∈ (a :: rest.take k).filterMap f
          rw [List.filterMap_cons, hfa]
          exact List.mem_cons_self b _
        · intro k i hk
          have hni := h (k + 1) i hk
          intro hmem
          apply hni
          show i ∈ (a :: rest.take k).filterMap f
          rw [List.filterMap_cons, hfa]
          exact List.mem_cons_of_mem b hmem

theorem danglingRefAt_eq_true_iff (ls : List RawLine) (k : Nat) :
    danglingRefAt ls k = true ↔
      ∃ rid, (ls.get? k).bind refIdOf = some rid
        ∧ rid ∉ (ls.take k).filterMap recIdOf := by
  unfold danglingRefAt
  cases h : (ls.get? k).bind refIdOf with
  | none =>
    constructor
    · intro hc
      exact Bool.noConfusion hc
    · rintro ⟨rid, hr, _⟩
      exact absurd hr (fun hc => Option.noConfusion hc)
  | some rid0 =>
    show (!(decide (rid0 ∈ (ls.take k).filterMap recIdOf))) = true ↔ _
    rw [Bool.not_eq_true', decide_eq_false_iff_not]
    constructor
    · intro hm
      exact ⟨rid0, rfl, hm⟩
    · rintro ⟨rid, hr, hm⟩
      injection hr with hr
      subst hr
      exact hm

/-- The spec's failure disjunction is exactly the negation of the
positional acceptance condition plus header existence. -/
theorem not_specParseFailure_iff (ls : List RawLine) :
    ¬ specParseFailure ls ↔ (specLoopCond 0 [] ls ∧ ls.any isHeaderLine = true) := by
  unfold specParseFailure
  rw [not_or, not_or, not_or, not_or]
  constructor
  · rintro ⟨h1, h2, h3, h4, h5⟩
    refine ⟨⟨h1, ?_, ?_, ?_⟩, ?_⟩
    · intro k hl hk hh
      cases k with
      | zero => rfl
      | succ k =>
        exfalso
        apply h2
        refine ⟨hl, ?_, hh⟩
        apply List.get?_mem
        show (ls.drop 1).get? k = some hl
        rw [List.get?_drop]
        rw [show 1 + k = k + 1 from by omega]
        exact hk
    · intro k i hk
      rw [not_not] at h3
      refine ⟨List.not_mem_nil i, ?_⟩
      exact (nodup_filterMap_iff recIdOf ls).mp h3 k i hk
    · intro k rid hk
      by_cases hmem : rid ∈ (ls.take k).filterMap recIdOf
      · exact Or.inr hmem
      · exfalso
        apply h4
        refine ⟨k, ?_, ?_⟩
        · cases hgk : ls.get? k with
          | none =>
            rw [hgk] at hk
            exact absurd hk (fun hc => Option.noConfusion hc)
          | some l' =>
            exact (List.get?_eq_some.mp hgk).1
        · rw [danglingRefAt_eq_true_iff]
          exact ⟨rid, hk, hmem⟩
    · by_contra hany
      apply h5
      intro l hl
      cases hh : isHeaderLine l with
      | false => rfl
      | true =>
        exfalso
        apply hany
        rw [List.any_eq_true]
        exact ⟨l, hl, hh⟩
  · rintro ⟨⟨h1, h2, h3, h4⟩, hany⟩
    refine ⟨h1, ?_, ?_, ?_, ?_⟩
    · rintro ⟨hl, hmem, hh⟩
      rcases List.mem_iff_get?.mp hmem with ⟨k, hk⟩
      rw [List.get?_drop] at hk
      have := h2 (1 + k) hl hk hh
      omega
    · rw [not_not]
      exact (nodup_filterMap_iff recIdOf ls).mpr (fun k i hk => (h3 k i hk).2)
    · rintro ⟨k, hklen, hdang⟩
      rw [danglingRefAt_eq_true_iff] at hdang
      rcases hdang with ⟨rid, hk, hmem⟩
      rcases h4 k rid hk with h | h
      · exact absurd h (List.not_mem_nil rid)
      · exact hmem h
    · intro hall
      rw [List.any_eq_true] at hany
      rcases hany with ⟨l, hl, hh⟩
      rw [hall l hl] at hh
      exact Bool.noConfusion hh

/-- `parse_trace` succeeds iff the scan accepts and a header exists. -/
theorem parse_trace_isOk_iff (ls : List RawLine) :
    (parse_trace ls).toOption.isSome = true
      ↔ (loopOK 0 [] ls = true ∧ ls.any isHeaderLine = true) := by
  unfold parse_trace
  cases hlp : parseLoop 0 { header := none, footer := none, records := [] } ls with
  | error e =>
    constructor
    · intro h
      exact Bool.noConfusion h
    · rintro ⟨hOK, _⟩
      have hex := (parseLoop_isOk_iff ls 0
        { header := none, footer := none, records := [] }).mpr hOK
      obtain ⟨st', h⟩ := hex
      rw [hlp] at h
      exact Except.noConfusion h
  | ok st =>
    have hh := parseLoop_header_isSome ls 0 _ st hlp
    have hh' : st.header.isSome = ls.any isHeaderLine := by
      rw [hh]
      rfl
    have hOK : loopOK 0 [] ls = true :=
      (parseLoop_isOk_iff ls 0 { header := none, footer := none, records := [] }).mp
        ⟨st, hlp⟩
    dsimp only
    cases hhd : st.header with
    | none =>
      constructor
      · intro h
        exact Bool.noConfusion h
      · rintro ⟨_, hany⟩
        rw [hhd] at hh'
        rw [← hh'] at hany
        exact Bool.noConfusion hany
    | some hd =>
      constructor
      · intro _
        refine ⟨hOK, ?_⟩
        rw [← hh', hhd]
        rfl
      · intro _
        rfl

/-- C9 (amended): `parse_trace` returns an error — and no partial trace —
exactly when the input contains a malformed line, a header entry that is
not the first line, a duplicate record id, an annotation/event/record_end
referencing an unknown record id, or no header at all; every error except
the missing-header one identifies the offending line number (the
missing-header error carries none, since no single line is at fault). -/
theorem parse_error_contract (ls : List RawLine) :
    ((parse_trace ls).toOption.isSome = true ↔ ¬ specParseFailure ls)
    ∧ (∀ e, parse_trace ls = .error e →
        e = ParseError.missingHeader ∨ (ParseError.errorLine e).isSome = true) := by
  constructor
  · rw [parse_trace_isOk_iff, not_specParseFailure_iff,
      loopOK_iff_specLoopCond ls 0 []]
  · intro e _
    cases e
    · exact Or.inr rfl
    · exact Or.inr rfl
    · exact Or.inr rfl
    · exact Or.inr rfl
    · exact Or.inr rfl
    · exact Or.inr rfl
    · exact Or.inl rfl

/-- Witness for C9: the well-formed example input parses, and indeed no
failure condition holds of it. -/
theorem parse_error_contract_witness :
    ((parse_trace exC2Lines).toOption.isSome = true ↔ ¬ specParseFailure exC2Lines)
    ∧ (parse_trace exC2Lines).toOption.isSome = true
    ∧ ¬ specParseFailure exC2Lines :=
  ⟨(parse_error_contract exC2Lines).1, by decide,
    (parse_error_contract exC2Lines).1.mp (by decide)⟩

/-- C9 counterexample: a headerless input fails with the missing-header
error, which carries no line number — so not every format error identifies
the offending line. -/
theorem parse_error_counterexample :
    (match parse_trace exC9NoHeader with
     | .error e => some e
     | .ok _ => none) = some ParseError.missingHeader
    ∧ ParseError.errorLine ParseError.missingHeader = none := by
  exact ⟨by decide, rfl⟩

end Jets
